import Mathlib

/-!
# SingSphere room hub (`src/backend/user/room.go`)

A shallow embedding of the room actor (`Room`, `Room.run`) and of the room
registry (`Rooms`) of the SingSphere backend, with the properties of its
specification stated and proved over the embedding.

Modelling conventions

* A Go `map[string]V` is a `GoMap V`: a list of key/value entries whose keys are
  pairwise distinct.  The order of the list is the order in which a `range`
  loop visits the entries; Go leaves that order unspecified, and every theorem
  below is proved for every map, hence for every visiting order.
* A `*User` is a `User` value: the fields read by `room.go` (`ID`, `send`) are
  never assigned there.  The channel `send` is a reference into a store of
  channel states (`Chans`), because closing and sending are effects that
  outlive the membership entry.
* A Go runtime panic is an explicit outcome (`Result.panic`) that carries the
  state reached when the panic was raised.
* The channels `join`, `leave`, `broadcast` and `requests` of a room are the
  sources of the events consumed by `Room.run`; one iteration of the `select`
  is one call of `Room.handle` on the received event.
* Between two messages the transport layer may drain the sinks: a sequence of
  `Happening`s mixes messages handled by the control loop with such drains.
* The playback worker `Room.StereoPlay` works on the songs sent so far on
  `r.transcodedSongs`; what it did is recorded as a list of `PlayStep`s.
* Goroutines that call `Rooms.GetOrCreate` together are callers that take the
  two steps of the function (the call of `Get`, then the rest) in the order
  of a schedule (`Shared.schedule`).
-/

namespace SingSphere

/-! ## Go maps with string keys -/

/-- A Go `map[string]V`: entries with pairwise distinct keys. -/
structure GoMap (V : Type) where
  entries : List (String × V)
  nodup : (entries.map Prod.fst).Nodup

namespace GoMap

variable {V : Type}

theorem ext_entries {m1 m2 : GoMap V} (h : m1.entries = m2.entries) : m1 = m2 := by
  cases m1; cases m2; cases h; rfl

instance [DecidableEq V] : DecidableEq (GoMap V) := fun m1 m2 =>
  decidable_of_iff (m1.entries = m2.entries) ⟨ext_entries, fun h => congrArg entries h⟩

/-- The map created by `make(map[string]V)`. -/
def empty : GoMap V := ⟨[], List.nodup_nil⟩

/-- Lookup over a list of entries. -/
def lookup (k : String) : List (String × V) → Option V
  | [] => none
  | e :: es => if e.1 = k then some e.2 else lookup k es

/-- The comma-ok read `v, ok := m[k]`. -/
def get? (m : GoMap V) (k : String) : Option V := lookup k m.entries

/-- The test `_, ok := m[k]`. -/
def contains (m : GoMap V) (k : String) : Bool := (m.get? k).isSome

/-- The entries of `m[k] = v`: an existing entry is overwritten, a new one added. -/
def setEntries (k : String) (v : V) (es : List (String × V)) : List (String × V) :=
  if (lookup k es).isSome then es.map (fun e => if e.1 = k then (k, v) else e)
  else es ++ [(k, v)]

/-- The entries of `delete(m, k)`. -/
def deleteEntries (k : String) (es : List (String × V)) : List (String × V) :=
  es.filter (fun e => decide (e.1 ≠ k))

theorem lookup_eq_none_iff (k : String) (es : List (String × V)) :
    lookup k es = none ↔ k ∉ es.map Prod.fst := by
  induction es with
  | nil => simp [lookup]
  | cons e es ih =>
    by_cases h : e.1 = k
    · simp [lookup, h]
    · have h2 : ¬ k = e.1 := fun h3 => h h3.symm
      simp [lookup, h, h2, ih]

theorem lookup_isSome_iff (k : String) (es : List (String × V)) :
    (lookup k es).isSome = true ↔ k ∈ es.map Prod.fst := by
  rw [← not_iff_not, ← lookup_eq_none_iff]
  cases lookup k es <;> simp

theorem setEntries_keys_of_mem (k : String) (v : V) (es : List (String × V))
    (h : (lookup k es).isSome = true) :
    (setEntries k v es).map Prod.fst = es.map Prod.fst := by
  simp only [setEntries, h, if_true, List.map_map]
  apply List.map_congr_left
  intro e _
  by_cases h2 : e.1 = k <;> simp [h2]

theorem setEntries_nodup (k : String) (v : V) (es : List (String × V))
    (h : (es.map Prod.fst).Nodup) : ((setEntries k v es).map Prod.fst).Nodup := by
  by_cases hk : (lookup k es).isSome = true
  · rw [setEntries_keys_of_mem k v es hk]; exact h
  · have hnot : k ∉ es.map Prod.fst := fun hm => hk ((lookup_isSome_iff k es).2 hm)
    simp only [setEntries, hk, Bool.false_eq_true, if_false, List.map_append, List.map_cons,
      List.map_nil]
    refine List.Nodup.append h (List.nodup_singleton k) ?_
    intro a ha hk2
    rw [List.mem_singleton] at hk2
    exact hnot (hk2 ▸ ha)

theorem deleteEntries_nodup (k : String) (es : List (String × V))
    (h : (es.map Prod.fst).Nodup) : ((deleteEntries k es).map Prod.fst).Nodup :=
  (List.filter_sublist es).map Prod.fst |>.nodup h

/-- The assignment `m[k] = v`. -/
def set (m : GoMap V) (k : String) (v : V) : GoMap V :=
  ⟨setEntries k v m.entries, setEntries_nodup k v m.entries m.nodup⟩

/-- The statement `delete(m, k)`. -/
def delete (m : GoMap V) (k : String) : GoMap V :=
  ⟨deleteEntries k m.entries, deleteEntries_nodup k m.entries m.nodup⟩

/-- The values in the order a `range` loop visits them. -/
def values (m : GoMap V) : List V := m.entries.map Prod.snd

/-- The builtin `len(m)`. -/
def len (m : GoMap V) : Nat := m.entries.length

end GoMap

/-! ## Participants, sinks and results -/

/-- A Go `[]byte` payload. -/
abbrev Bytes := List UInt8

/-- The state of a `chan []byte`: the queued payloads, the number of payloads the
channel holds before a send would block (its buffer, plus one per receiver
waiting on it), and whether it has been closed. -/
structure Chan where
  buf : List Bytes
  cap : Nat
  closed : Bool
deriving DecidableEq, Repr

/-- The channels of the process, by reference. -/
abbrev Chans := Nat → Chan

/-- Replace the state of channel `c`. -/
def Chans.upd (h : Chans) (c : Nat) (v : Chan) : Chans :=
  fun x => if x = c then v else h x

/-- The fields of `User` that `room.go` reads: the identity and the outbound
sink `send` (a channel reference).  The participants handed to the room are
non-nil and their sink has been made (it is not the nil channel). -/
structure User where
  ID : String
  send : Nat
deriving DecidableEq, Repr

/-- The fields of `stereo.Song` that `room.go` reads. -/
structure Song where
  Name : String
  Path : String
deriving DecidableEq, Repr

/-- The value `Event{Type: operation, Song: song}` (`Kind` is the field `Type`,
a reserved word here); `Song` is a `*stereo.Song`, with `none` for nil. -/
structure Event where
  Kind : String
  Song : Option Song
deriving DecidableEq, Repr

/-- The struct `broadcastMsg`; `user` is a `*User`, with `none` for nil. -/
structure broadcastMsg where
  data : Bytes
  user : Option User
deriving DecidableEq, Repr

/-- Outcome of running Go code on a state: normal completion, or a runtime
panic with the state reached when it was raised. -/
inductive Result (σ : Type) where
  | ok (s : σ)
  | panic (err : String) (s : σ)

/-- The state carried by an outcome. -/
def Result.state {σ : Type} : Result σ → σ
  | .ok s => s
  | .panic _ s => s

/-- Whether the code completed without a panic. -/
def Result.isOk {σ : Type} : Result σ → Bool
  | .ok _ => true
  | .panic _ _ => false

/-- The builtin `close(c)`: panics on a channel that is already closed. -/
def closeChan (h : Chans) (c : Nat) : Option Chans :=
  if (h c).closed then none else some (h.upd c { h c with closed := true })

/-- Outcome of the statement `select { case c <- data: default: }`. -/
inductive SendOutcome where
  | sent (h : Chans)
  | full
  | closedPanic

/-- The non-blocking send `select { case c <- data: default: }`: a send on a
closed channel panics, a channel with room takes the payload, otherwise the
`default` branch is taken. -/
def trySend (h : Chans) (c : Nat) (data : Bytes) : SendOutcome :=
  if (h c).closed then .closedPanic
  else if (h c).buf.length < (h c).cap then
    .sent (h.upd c { h c with buf := (h c).buf ++ [data] })
  else .full

/-! ## The room -/

/-- The struct `Room`.  Its channels `broadcast`, `join`, `leave` and `requests`
are the sources of the messages of `Msg`, `transcodedSongs` is the input of the
playback worker; `stereoTrack` and `playlist` are handles of external packages
and carry no state of the room. -/
structure Room where
  Name : String
  users : GoMap User
  stereoPlaying : Bool
deriving DecidableEq

/-- A goroutine started by a `go` statement of `Room.run`. -/
inductive Goroutine where
  | BroadcastEventJoin (user : User)
  | BroadcastEventLeave (user : User)
  | Trans (encoded : String)
deriving DecidableEq, Repr

/-- What one iteration of `Room.run` works on: the room, the channel store, the
goroutines started so far, and the calls of `SendEvent` made so far. -/
structure State where
  room : Room
  chans : Chans
  spawned : List Goroutine
  calls : List (User × Event)

/-- A value received by the `select` of `Room.run`.  For a song request, `ack` is
the value the pipeline sends on the acknowledgment channel `successCh`. -/
inductive Msg where
  | join (user : User)
  | leave (user : User)
  | broadcast (message : broadcastMsg)
  | request (encoded : String) (ack : Option Song)
deriving DecidableEq, Repr

/-- The method `Room.Join`: hands the participant to the control loop. -/
def Room.Join (user : User) : Msg := .join user

/-- The method `Room.Leave`. -/
def Room.Leave (user : User) : Msg := .leave user

/-- The method `Room.Broadcast`. -/
def Room.Broadcast (data : Bytes) (user : Option User) : Msg :=
  .broadcast { data := data, user := user }

/-- The method `Room.GetUsers`. -/
def Room.GetUsers (r : Room) : List User := r.users.values

/-- The method `Room.GetOtherUsers`. -/
def Room.GetOtherUsers (r : Room) (user : User) : List User :=
  r.users.values.filter (fun userCandidate => decide (user.ID ≠ userCandidate.ID))

/-- The method `Room.GetUsersCount`. -/
def Room.GetUsersCount (r : Room) : Nat := r.GetUsers.length

/-- A loop `for _, user := range r.users { body }` over the entries `es` still to
visit: an entry deleted before it is reached is not visited, and a panic of the
body ends the loop. -/
def rangeUsers (body : User → State → Result State) :
    List (String × User) → State → Result State
  | [], s => .ok s
  | e :: es, s =>
    match s.room.users.get? e.1 with
    | none => rangeUsers body es s
    | some user =>
      match body user s with
      | .ok s1 => rangeUsers body es s1
      | .panic err s1 => .panic err s1

/-- The condition `message.user != nil && user.ID == message.user.ID`. -/
def isExcluded (message : broadcastMsg) (user : User) : Bool :=
  match message.user with
  | none => false
  | some me => decide (user.ID = me.ID)

/-- The body of the loop of the `broadcast` case of `Room.run`. -/
def broadcastBody (message : broadcastMsg) (user : User) (s : State) : Result State :=
  if isExcluded message user then .ok s
  else
    match trySend s.chans user.send message.data with
    | .sent h => .ok { s with chans := h }
    | .closedPanic => .panic "send on closed channel" s
    | .full =>
      match closeChan s.chans user.send with
      | none => .panic "close of closed channel" s
      | some h =>
        .ok { s with chans := h,
                     room := { s.room with users := s.room.users.delete user.ID } }

section SendEvent

/- The method `User.SendEvent` is not part of `room.go`; it is a parameter:
from the participant, the event and the channel store it gives the new channel
store and the returned error (`none` for nil). -/
variable (SendEvent : User → Event → Chans → Chans × Option String)

/-- The body of the loop of `Room.BroadcastSong`. -/
def broadcastSongBody (operation : String) (song : Option Song) (u : User) (s : State) :
    Result State :=
  let ev : Event := { Kind := operation, Song := song }
  let s1 : State := { s with chans := (SendEvent u ev s.chans).1, calls := s.calls ++ [(u, ev)] }
  match (SendEvent u ev s.chans).2 with
  | some err => .panic err s1
  | none => .ok s1

/-- The method `Room.BroadcastSong`. -/
def Room.BroadcastSong (operation : String) (song : Option Song) (s : State) : Result State :=
  rangeUsers (broadcastSongBody SendEvent operation song) s.room.users.entries s

/-- One iteration of the `for { select { ... } }` of `Room.run` on the received
message. -/
def Room.handle (m : Msg) (s : State) : Result State :=
  match m with
  | .join user =>
    .ok { s with room := { s.room with users := s.room.users.set user.ID user },
                 spawned := s.spawned ++ [.BroadcastEventJoin user] }
  | .leave user =>
    match s.room.users.get? user.ID with
    | some _ =>
      let s1 : State := { s with room := { s.room with users := s.room.users.delete user.ID } }
      match closeChan s1.chans user.send with
      | none => .panic "close of closed channel" s1
      | some h => .ok { s1 with chans := h, spawned := s1.spawned ++ [.BroadcastEventLeave user] }
    | none => .ok { s with spawned := s.spawned ++ [.BroadcastEventLeave user] }
  | .broadcast message =>
    rangeUsers (broadcastBody message) s.room.users.entries s
  | .request encoded ack =>
    let s1 : State := { s with spawned := s.spawned ++ [.Trans encoded] }
    match ack with
    | some song => Room.BroadcastSong SendEvent "enqueue" (some song) s1
    | none => .ok s1

/-- The method `Room.run` on a finite sequence of received messages: they are
handled one at a time, and a panic ends the loop. -/
def Room.run : List Msg → State → Result State
  | [], s => .ok s
  | m :: ms, s =>
    match Room.handle SendEvent m s with
    | .ok s1 => Room.run ms s1
    | .panic err s1 => .panic err s1

/-- The messages that `Room.run` has received when it stops: all of them, or
those up to the one on which it panicked. -/
def Room.handled : List Msg → State → List Msg
  | [], _ => []
  | m :: ms, s =>
    match Room.handle SendEvent m s with
    | .ok s1 => m :: Room.handled ms s1
    | .panic _ _ => [m]

end SendEvent

/-! ## Public views and the registry -/

/-- The struct `RoomWrap`; `UW` is the type `UserWrap` of the public view of a
participant, declared outside `room.go`.  `Online` is a Go `int` holding a
length. -/
structure RoomWrap (UW : Type) where
  Users : List UW
  Name : String
  Online : Nat

/-- The method `Room.Wrap`; `wrap` is the method `User.Wrap`, declared outside
`room.go`, and `me` is a `*User`, with `none` for nil. -/
def Room.Wrap {UW : Type} (wrap : User → UW) (r : Room) (me : Option User) : RoomWrap UW :=
  let usersWrap : List UW := r.GetUsers.foldl
    (fun usersWrap user =>
      match me with
      | some me => if me.ID = user.ID then usersWrap else usersWrap ++ [wrap user]
      | none => usersWrap ++ [wrap user])
    []
  { Users := usersWrap, Name := r.Name, Online := usersWrap.length }

/-- The function `NewRoom`; `addTrackErr` is the error returned by
`webrtc.NewTrack` (`none` for nil), on which the function panics. -/
def NewRoom (name : String) (addTrackErr : Option String) : Except String Room :=
  match addTrackErr with
  | some err => .error err
  | none => .ok { Name := name, users := GoMap.empty, stereoPlaying := false }

/-- A `*Room`: `none` is nil, `some p` points to the `p`-th allocated room. -/
abbrev RoomPtr := Option Nat

/-- The `Room` objects allocated so far and the rooms whose control loop has
been started by `go newRoom.run()`. -/
structure Heap where
  objs : List Room
  running : List RoomPtr

/-- Dereference of a `*Room`. -/
def Heap.deref (h : Heap) : RoomPtr → Option Room
  | none => none
  | some p => h.objs[p]?

/-- A Go `error` value of `room.go`: the package variable `ErrNotFound`, or a
value made by `errors.New`. -/
inductive GoError where
  | ErrNotFound
  | New (text : String)
deriving DecidableEq, Repr

/-- The struct `Rooms`. -/
structure Rooms where
  rooms : GoMap RoomPtr

/-- The function `NewRooms`. -/
def NewRooms : Rooms := { rooms := GoMap.empty }

/-- The method `Rooms.Get`: the returned room and error (`none` for nil). -/
def Rooms.Get (r : Rooms) (roomID : String) : RoomPtr × Option GoError :=
  match r.rooms.get? roomID with
  | some room => (room, none)
  | none => (none, some .ErrNotFound)

/-- The method `Rooms.AddRoom`: the registry afterwards and the returned error. -/
def Rooms.AddRoom (r : Rooms) (roomID : String) (room : RoomPtr) : Rooms × Option GoError :=
  match r.rooms.get? roomID with
  | some _ => (r, some (.New ("room with id " ++ roomID ++ " already exists")))
  | none => ({ rooms := r.rooms.set roomID room }, none)

/-- The method `Rooms.RemoveRoom`: the registry afterwards and the returned error. -/
def Rooms.RemoveRoom (r : Rooms) (roomID : String) : Rooms × Option GoError :=
  match r.rooms.get? roomID with
  | some _ => ({ rooms := r.rooms.delete roomID }, none)
  | none => (r, none)

/-- The method `Rooms.GetOrCreate`: the returned room, the registry and the heap
afterwards; the error case is the panic of `NewRoom`. -/
def Rooms.GetOrCreate (r : Rooms) (roomID : String) (addTrackErr : Option String) (h : Heap) :
    Except String (RoomPtr × Rooms × Heap) :=
  match r.Get roomID with
  | (room, none) => .ok (room, r, h)
  | (_, some _) =>
    match NewRoom roomID addTrackErr with
    | .error err => .error err
    | .ok room =>
      let newRoom : RoomPtr := some h.objs.length
      let h1 : Heap := { h with objs := h.objs ++ [room] }
      .ok (newRoom, (r.AddRoom roomID newRoom).1, { h1 with running := h1.running ++ [newRoom] })

/-- The struct `RoomsStats`.  `Online` is a Go `int`: it is the number of
`UserWrap` values held by `Rooms`, so it cannot leave the range of `int`. -/
structure RoomsStats (UW : Type) where
  Online : Nat
  Rooms : List (RoomWrap UW)

/-- The body of the loop of `Rooms.GetStats`; a nil room panics. -/
def getStatsBody {UW : Type} (wrap : User → UW) (h : Heap) (stats : RoomsStats UW)
    (room : RoomPtr) : Except String (RoomsStats UW) :=
  match h.deref room with
  | none => .error "invalid memory address or nil pointer dereference"
  | some rm =>
    .ok { Online := stats.Online + rm.GetUsersCount,
          Rooms := stats.Rooms ++ [rm.Wrap wrap none] }

/-- The loop `for _, room := range r.rooms` of `Rooms.GetStats`. -/
def getStatsLoop {UW : Type} (wrap : User → UW) (h : Heap) :
    List (String × RoomPtr) → RoomsStats UW → Except String (RoomsStats UW)
  | [], stats => .ok stats
  | e :: es, stats =>
    match getStatsBody wrap h stats e.2 with
    | .error err => .error err
    | .ok stats1 => getStatsLoop wrap h es stats1

/-- The method `Rooms.GetStats`. -/
def Rooms.GetStats {UW : Type} (wrap : User → UW) (r : Rooms) (h : Heap) :
    Except String (RoomsStats UW) :=
  getStatsLoop wrap h r.rooms.entries { Online := 0, Rooms := [] }

/-! ## The room among the other goroutines -/

/-- The transport layer receives one payload from the channel `c` (a receive
from an empty channel takes nothing). -/
def Room.drain (c : Nat) (s : State) : State :=
  { s with chans := s.chans.upd c { s.chans c with buf := (s.chans c).buf.tail } }

/-- Something that happens to the state of a room: the control loop handles a
message, or the transport layer drains a sink. -/
inductive Happening where
  | loop (m : Msg)
  | drain (c : Nat)
deriving DecidableEq, Repr

/-- A step of the playback worker (see `Playback`). -/
inductive PlayStep where
  | start
  | nextSong (song : Song)
  | play (song : Song)
  | finished (song : Song)
deriving DecidableEq, Repr

/-- What the playback worker works on: the state of the room, the values sent on
`r.transcodedSongs` and not yet received (a `*stereo.Song` each, `none` for
nil), and the steps the worker has taken so far: `start` for the line
`log.Println("Stereo Start Playing")`, and per song `nextSong` for the call of
`BroadcastSong`, `play` for the call of `stereo.Play` and `finished` for the
return of `<-ctx.Done()`. -/
structure Playback where
  st : State
  transcodedSongs : List (Option Song)
  steps : List PlayStep

/-- How an invocation of `Room.StereoPlay` stands when it can go no further:
it has returned at once at the guard; it has received every song sent so far
(the `range` waits for the next one, or has ended if the channel was closed);
it waits on `<-ctx.Done()` for a playback that does not end; or it has
panicked. -/
inductive PlayEnd where
  | guard
  | drained
  | playing (song : Song)
  | panic (err : String)
deriving DecidableEq, Repr

/-- An invocation of `Room.StereoPlay`, with what it leaves behind. -/
structure PlayResult where
  ending : PlayEnd
  pb : Playback

section Surroundings

variable (SendEvent : User → Event → Chans → Chans × Option String)

/- The function `stereo.Play` is not part of `room.go`; `playEnds song` tells
whether the playback it starts for the song ends, that is whether it calls
`ctxCancel`. -/
variable (playEnds : Song → Bool)

/-- A finite sequence of happenings on a room; a panic of the control loop ends
it. -/
def Room.exec : List Happening → State → Result State
  | [], s => .ok s
  | .loop m :: hs, s =>
    match Room.handle SendEvent m s with
    | .ok s1 => Room.exec hs s1
    | .panic err s1 => .panic err s1
  | .drain c :: hs, s => Room.exec hs (Room.drain c s)

/-- The loop `for song := range r.transcodedSongs` of `Room.StereoPlay` on the
songs sent so far. -/
def playLoop : List (Option Song) → State → List PlayStep → PlayResult
  | [], s, steps => { ending := .drained, pb := { st := s, transcodedSongs := [], steps := steps } }
  | none :: rest, s, steps =>
    { ending := .panic "invalid memory address or nil pointer dereference",
      pb := { st := s, transcodedSongs := rest, steps := steps } }
  | some song :: rest, s, steps =>
    match Room.BroadcastSong SendEvent "next_song" (some song) s with
    | .panic err s1 =>
      { ending := .panic err,
        pb := { st := s1, transcodedSongs := rest, steps := steps ++ [.nextSong song] } }
    | .ok s1 =>
      if playEnds song then
        playLoop rest s1 (steps ++ [.nextSong song, .play song, .finished song])
      else
        { ending := .playing song,
          pb := { st := s1, transcodedSongs := rest,
                  steps := steps ++ [.nextSong song, .play song] } }

/-- The method `Room.StereoPlay`. -/
def Room.StereoPlay (pb : Playback) : PlayResult :=
  if pb.st.room.stereoPlaying then { ending := .guard, pb := pb }
  else
    playLoop SendEvent playEnds pb.transcodedSongs
      { pb.st with room := { pb.st.room with stereoPlaying := true } }
      (pb.steps ++ [.start])

/-- What happens between two invocations of `Room.StereoPlay`: happenings on the
room, and songs sent on `r.transcodedSongs`. -/
structure Interlude where
  happenings : List Happening
  songs : List (Option Song)

/-- The playback state after an interlude. -/
def Playback.after (i : Interlude) (pb : Playback) : Playback :=
  { st := (Room.exec SendEvent i.happenings pb.st).state,
    transcodedSongs := pb.transcodedSongs ++ i.songs,
    steps := pb.steps }

/-- The worker that stands at `worker` goes on after an interlude: a worker that
waits in `range r.transcodedSongs` receives the songs sent in the meantime; a
worker that waits for a playback that does not end, or that has panicked, does
nothing more. -/
def Playback.resume (worker : PlayEnd) (pb : Playback) : PlayResult :=
  match worker with
  | .drained => playLoop SendEvent playEnds pb.transcodedSongs pb.st pb.steps
  | w => { ending := w, pb := pb }

/-- Sequential invocations of `Room.StereoPlay`, each after an interlude;
`worker` tells where the worker started by an earlier invocation stands (`none`
if no invocation has started it).  After each interlude the worker goes on
(`Playback.resume`), then the next invocation is made. -/
def invocationsFrom : Option PlayEnd → List Interlude → Playback → Playback
  | _, [], pb => pb
  | none, i :: is, pb =>
    invocationsFrom
      (match (Room.StereoPlay SendEvent playEnds (pb.after SendEvent i)).ending with
        | .guard => none
        | w => some w)
      is (Room.StereoPlay SendEvent playEnds (pb.after SendEvent i)).pb
  | some worker, i :: is, pb =>
    invocationsFrom
      (match (Room.StereoPlay SendEvent playEnds
          (Playback.resume SendEvent playEnds worker (pb.after SendEvent i)).pb).ending with
        | .guard => some (Playback.resume SendEvent playEnds worker (pb.after SendEvent i)).ending
        | w => some w)
      is (Room.StereoPlay SendEvent playEnds
        (Playback.resume SendEvent playEnds worker (pb.after SendEvent i)).pb).pb

/-- Sequential invocations of `Room.StereoPlay` on a room whose worker has not
been started, each after an interlude. -/
def invocations (is : List Interlude) (pb : Playback) : Playback :=
  invocationsFrom SendEvent playEnds none is pb

end Surroundings

/-! ## Callers of `GetOrCreate` running together -/

/-- Where a caller of `Rooms.GetOrCreate` stands: before the call of `r.Get`;
after a `Get` that returned an error, before `NewRoom`; returned with a room;
or panicked in `NewRoom`. -/
inductive Caller where
  | start
  | missed
  | returned (room : RoomPtr)
  | panicked
deriving DecidableEq, Repr

/-- The registry and the heap shared by the callers, and where each caller
stands. -/
structure Shared where
  rooms : Rooms
  heap : Heap
  callers : List Caller

/-- The part of `Rooms.GetOrCreate` that follows a `Get` that returned an error:
`NewRoom`, `AddRoom`, `go newRoom.run()` and the return. -/
def Rooms.createRoom (r : Rooms) (roomID : String) (addTrackErr : Option String) (h : Heap) :
    Except String (RoomPtr × Rooms × Heap) :=
  match NewRoom roomID addTrackErr with
  | .error err => .error err
  | .ok room =>
    let newRoom : RoomPtr := some h.objs.length
    let h1 : Heap := { h with objs := h.objs ++ [room] }
    .ok (newRoom, (r.AddRoom roomID newRoom).1, { h1 with running := h1.running ++ [newRoom] })

/-- The caller `i` takes its next step of `GetOrCreate(roomID)`: the call of
`r.Get` with the test of its error, or the rest of the function. -/
def Shared.step (roomID : String) (addTrackErr : Option String) (sh : Shared) (i : Nat) :
    Shared :=
  match sh.callers[i]? with
  | some .start =>
    match sh.rooms.Get roomID with
    | (room, none) => { sh with callers := sh.callers.set i (.returned room) }
    | (_, some _) => { sh with callers := sh.callers.set i .missed }
  | some .missed =>
    match sh.rooms.createRoom roomID addTrackErr sh.heap with
    | .error _ => { sh with callers := sh.callers.set i .panicked }
    | .ok (room, r1, h1) =>
      { rooms := r1, heap := h1, callers := sh.callers.set i (.returned room) }
  | _ => sh

/-- The callers take their steps in the order given by the schedule. -/
def Shared.schedule (roomID : String) (addTrackErr : Option String) (sh : Shared)
    (order : List Nat) : Shared :=
  order.foldl (Shared.step roomID addTrackErr) sh

/-- Calls of `GetOrCreate(roomID)` made one after the other, none starting
before the previous one has returned: the rooms returned, the registry and the
heap at the end. -/
def Rooms.getOrCreateTimes (roomID : String) :
    Nat → Rooms → Heap → Except String (List RoomPtr × Rooms × Heap)
  | 0, r, h => .ok ([], r, h)
  | n + 1, r, h =>
    match r.GetOrCreate roomID none h with
    | .error err => .error err
    | .ok (room, r1, h1) =>
      match Rooms.getOrCreateTimes roomID n r1 h1 with
      | .error err => .error err
      | .ok (rooms, r2, h2) => .ok (room :: rooms, r2, h2)

/-! ## Vocabulary of the specification -/

/-- Whether a message is a Join or a Leave. -/
def Msg.isJoinOrLeave : Msg → Bool
  | .join _ => true
  | .leave _ => true
  | _ => false

/-- Whether a message is a Join. -/
def Msg.isJoin : Msg → Bool
  | .join _ => true
  | _ => false

/-- Whether a message is a Join or a Leave carrying the identity `id`. -/
def Msg.carries (id : String) : Msg → Bool
  | .join user => decide (user.ID = id)
  | .leave user => decide (user.ID = id)
  | _ => false

/-- The most recent event of the sequence that carries the identity `id`. -/
def mostRecent (id : String) (evs : List Msg) : Option Msg :=
  (evs.filter (Msg.carries id)).getLast?

/-- The most recent event carrying the identity `id` is a Join. -/
def lastIsJoin (id : String) (evs : List Msg) : Bool :=
  match mostRecent id evs with
  | some (.join _) => true
  | _ => false

/-- The steps of the worker for one song played to its end: the "next_song" round,
the start of the playback, and the end of the wait for it. -/
def playRound (song : Song) : List PlayStep :=
  [.nextSong song, .play song, .finished song]

/-- The calls of `SendEvent` of one round of `BroadcastSong` over the members. -/
def songRound (operation : String) (members : List User) (song : Song) :
    List (User × Event) :=
  members.map (fun u => (u, { Kind := operation, Song := some song }))

/-- The participant carried by a Join or a Leave handled by the control loop. -/
def Happening.participant : Happening → Option User
  | .loop (.join user) => some user
  | .loop (.leave user) => some user
  | _ => none

/-- The participant carried by a Join handled by the control loop. -/
def Happening.joined : Happening → Option User
  | .loop (.join user) => some user
  | _ => none

/-- A Join, a Leave or a Broadcast handled by the control loop, or a payload
drained from a sink: anything but a song request. -/
def Happening.isMembership : Happening → Bool
  | .loop (.request _ _) => false
  | _ => true

/-- Distinct participant objects have distinct identities. -/
def DistinctIdentities (us : List User) : Prop :=
  ∀ u ∈ us, ∀ v ∈ us, u.ID = v.ID → u = v

/-- Distinct participant objects have distinct identities, and each participant
has a sink of its own. -/
def DistinctParticipants (us : List User) : Prop :=
  ∀ u ∈ us, ∀ v ∈ us, (u.ID = v.ID → u = v) ∧ (u.send = v.send → u = v)

/-- The members of `before` that are no longer members in `after`: those removed
by a Leave or evicted by a Broadcast. -/
def membersLost (before after : State) : List User :=
  before.room.GetUsers.filter (fun u => decide (u ∉ after.room.GetUsers))

/-- No participant is joined again after it has been removed by a Leave or an
eviction; `removed` are the participants removed so far. -/
def noRejoin (SendEvent : User → Event → Chans → Chans × Option String) :
    List Happening → State → List User → Bool
  | [], _, _ => true
  | .drain c :: hs, s, removed => noRejoin SendEvent hs (Room.drain c s) removed
  | .loop m :: hs, s, removed =>
    (match m with
      | .join user => decide (user ∉ removed)
      | _ => true) &&
    noRejoin SendEvent hs (Room.handle SendEvent m s).state
      (removed ++ membersLost s (Room.handle SendEvent m s).state)

/-- Every entry of the membership is stored under the identity of its
participant, as `r.users[user.ID] = user` makes it. -/
def KeyedByID (users : GoMap User) : Prop :=
  ∀ e ∈ users.entries, e.2.ID = e.1

/-- Whether the sink has room for one more payload. -/
def Chan.hasRoom (ch : Chan) : Bool := decide (ch.buf.length < ch.cap)

/-- Whether a Broadcast keeps the member: it is the excluded participant, or its
sink has room. -/
def keptByBroadcast (message : broadcastMsg) (chans : Chans) (user : User) : Bool :=
  isExcluded message user || (chans user.send).hasRoom

/-- The sink of a member after a Broadcast, from the sink before: untouched for
the excluded participant, one payload longer if it has room, closed otherwise. -/
def sinkAfterBroadcast (message : broadcastMsg) (user : User) (ch : Chan) : Chan :=
  if isExcluded message user then ch
  else if ch.hasRoom then { ch with buf := ch.buf ++ [message.data] }
  else { ch with closed := true }

/-- The entries `es` that a `range` loop has still to visit are entries of the
membership, stored under their participant's identity, and their sinks are
open and pairwise distinct. -/
structure LoopInv (es : List (String × User)) (s : State) : Prop where
  present : ∀ e ∈ es, s.room.users.get? e.1 = some e.2
  keyed : ∀ e ∈ es, e.2.ID = e.1
  keysNodup : (es.map Prod.fst).Nodup
  sinksOpen : ∀ e ∈ es, (s.chans e.2.send).closed = false
  sinksNodup : (es.map (fun e => e.2.send)).Nodup

/-- The state of a room in service: every member is stored under its identity,
and the sinks of the members are open and pairwise distinct. -/
structure MembersLive (s : State) : Prop where
  keyed : KeyedByID s.room.users
  sinksOpen : ∀ e ∈ s.room.users.entries, (s.chans e.2.send).closed = false
  sinksNodup : (s.room.users.entries.map (fun e => e.2.send)).Nodup

/-- The entries `es` that the loop of a Broadcast has still to visit are entries
of the membership, stored under their participant's identity, their sinks are
pairwise distinct, and the sinks of those that the Broadcast does not exclude
are open. -/
structure LoopReady (message : broadcastMsg) (es : List (String × User)) (s : State) :
    Prop where
  present : ∀ e ∈ es, s.room.users.get? e.1 = some e.2
  keyed : ∀ e ∈ es, e.2.ID = e.1
  keysNodup : (es.map Prod.fst).Nodup
  sinksOpen : ∀ e ∈ es, isExcluded message e.2 = false → (s.chans e.2.send).closed = false
  sinksNodup : (es.map (fun e => e.2.send)).Nodup

/-- The state of a room on which a Broadcast can be handled: every member is
stored under its identity, the sinks of the members are pairwise distinct, and
the sink of every member that the Broadcast does not exclude is open. -/
structure BroadcastReady (message : broadcastMsg) (s : State) : Prop where
  keyed : KeyedByID s.room.users
  sinksOpen : ∀ e ∈ s.room.users.entries, isExcluded message e.2 = false →
    (s.chans e.2.send).closed = false
  sinksNodup : (s.room.users.entries.map (fun e => e.2.send)).Nodup

/-- What holds of a room between two happenings when no removed participant has
been joined again: the members are stored under their identity and have been
joined, their sinks are open, and every closed sink of a joined participant
belongs to a removed participant. -/
structure SinksSafe (joined removed : List User) (s : State) : Prop where
  keyed : KeyedByID s.room.users
  sinksOpen : ∀ e ∈ s.room.users.entries, (s.chans e.2.send).closed = false
  membersJoined : ∀ e ∈ s.room.users.entries, e.2 ∈ joined
  closedRemoved : ∀ u ∈ joined, (s.chans u.send).closed = true → u ∈ removed

/-- The preconditions on a sequence of happenings and on the state it starts
from: membership is empty; the sequence holds Joins, Leaves, Broadcasts and
drains only; distinct participant objects have distinct identities and sinks of
their own; and the sink of every participant that is joined is open at the
start (it is open when the participant is first joined, since only the control
loop closes sinks). -/
structure SoundStart (hs : List Happening) (s : State) : Prop where
  empty : s.room.users = GoMap.empty
  membership : ∀ h ∈ hs, h.isMembership = true
  distinct : DistinctParticipants (hs.filterMap Happening.participant)
  sinksOpen : ∀ u ∈ hs.filterMap Happening.joined, (s.chans u.send).closed = false

/-- The message of the panic, if the code panicked. -/
def Result.err {σ : Type} : Result σ → Option String
  | .ok _ => none
  | .panic err _ => some err

/-! ## Example data -/

/-- A `SendEvent` that always returns nil and leaves the sinks as they are. -/
def sendOk : User → Event → Chans → Chans × Option String :=
  fun _ _ h => (h, none)

/-- A `SendEvent` that returns an error for the participant `id` and nil for
everybody else. -/
def sendFailsFor (id : String) : User → Event → Chans → Chans × Option String :=
  fun u _ h => (h, if u.ID = id then some "send failed" else none)

def alice : User := { ID := "alice", send := 1 }

def bob : User := { ID := "bob", send := 2 }

def carol : User := { ID := "carol", send := 3 }

def dave : User := { ID := "dave", send := 4 }

/-- Sinks of capacity one; the sink of `carol` is full. -/
def exChans : Chans :=
  fun c => if c = 3 then { buf := [[0]], cap := 1, closed := false }
    else { buf := [], cap := 1, closed := false }

/-- The room "lobby" with no member. -/
def exEmpty : State :=
  { room := { Name := "lobby", users := GoMap.empty, stereoPlaying := false },
    chans := exChans, spawned := [], calls := [] }

/-- The room "lobby" with members `alice`, `bob` and `carol`. -/
def exLobby : State :=
  { room := { Name := "lobby",
              users := ⟨[("alice", alice), ("bob", bob), ("carol", carol)], by decide⟩,
              stereoPlaying := false },
    chans := exChans, spawned := [], calls := [] }

def exSong : Song := { Name := "X", Path := "/songs/x.opus" }

/-- A heap with a room of two members and a room of three members. -/
def exHeap : Heap :=
  { objs := [{ Name := "duo", users := ⟨[("alice", alice), ("bob", bob)], by decide⟩,
               stereoPlaying := false },
             exLobby.room],
    running := [some 0, some 1] }

/-- A registry of the two rooms of `exHeap`. -/
def exRooms : Rooms :=
  { rooms := ⟨[("duo", some 0), ("lobby", some 1)], by decide⟩ }

def exSong2 : Song := { Name := "Y", Path := "/songs/y.opus" }

/-- A `stereo.Play` whose playbacks all end. -/
def playsToEnd : Song → Bool := fun _ => true

/-- The lobby before the first invocation of `StereoPlay`, with two songs sent on
`r.transcodedSongs`. -/
def exPlayback : Playback :=
  { st := exLobby, transcodedSongs := [some exSong, some exSong2], steps := [] }

/-- Alice and carol join, a Broadcast evicts carol (her sink is full), the
transport drains the sink of alice, alice leaves and bob joins. -/
def exHappenings : List Happening :=
  [.loop (.join alice), .loop (.join carol),
   .loop (.broadcast { data := [7], user := none }), .drain 1,
   .loop (.leave alice), .loop (.join bob)]

/-- A participant whose sink is the channel 5. -/
def eve : User := { ID := "eve", send := 5 }

/-- Another participant, with another identity, whose sink is the channel 5 as
well. -/
def frank : User := { ID := "frank", send := 5 }

/-- Eve and frank join and eve leaves. -/
def exSharedSink : List Happening :=
  [.loop (.join eve), .loop (.join frank), .loop (.leave eve)]

/-- Alice joins, leaves and joins again, and carol joins. -/
def exRejoined : List Msg :=
  [.join alice, .leave alice, .join alice, .join carol]

/-- Two callers of `GetOrCreate` about to start, on an empty registry and an
empty heap. -/
def exTwoCallers : Shared :=
  { rooms := NewRooms, heap := { objs := [], running := [] }, callers := [.start, .start] }

/-! ## Facts about Go maps -/

namespace GoMap

variable {V : Type}

theorem lookup_setEntries_self (k : String) (v : V) (es : List (String × V)) :
    lookup k (setEntries k v es) = some v := by
  by_cases hk : (lookup k es).isSome = true
  · simp only [setEntries, hk, if_true]
    induction es with
    | nil => simp [lookup] at hk
    | cons e es ih =>
      by_cases he : e.1 = k
      · simp [lookup, he]
      · simp only [lookup, he, if_false] at hk
        simp [lookup, he, ih hk]
  · simp only [setEntries, hk, Bool.false_eq_true, if_false]
    have hnone : lookup k es = none := by
      cases hl : lookup k es with
      | none => rfl
      | some x => simp [hl] at hk
    clear hk
    induction es with
    | nil => simp [lookup]
    | cons e es ih =>
      by_cases he : e.1 = k
      · simp [lookup, he] at hnone
      · simp only [lookup, he, if_false] at hnone
        simp [lookup, he, ih hnone]

theorem lookup_setEntries_other (k k2 : String) (v : V) (es : List (String × V))
    (hne : k2 ≠ k) : lookup k2 (setEntries k v es) = lookup k2 es := by
  have hne2 : ¬ k = k2 := fun h => hne h.symm
  by_cases hk : (lookup k es).isSome = true
  · simp only [setEntries, hk, if_true]
    clear hk
    induction es with
    | nil => rfl
    | cons e es ih =>
      by_cases he : e.1 = k
      · have he2 : ¬ e.1 = k2 := fun h => hne (h.symm.trans he)
        simp [lookup, he, he2, hne2, ih]
      · simp [lookup, he, ih]
  · simp only [setEntries, hk, Bool.false_eq_true, if_false]
    clear hk
    induction es with
    | nil => simp [lookup, hne2]
    | cons e es ih =>
      by_cases he : e.1 = k2
      · simp [lookup, he]
      · simp [lookup, he, ih]

theorem lookup_deleteEntries_self (k : String) (es : List (String × V)) :
    lookup k (deleteEntries k es) = none := by
  rw [lookup_eq_none_iff]
  simp [deleteEntries, List.mem_filter]

theorem lookup_deleteEntries_other (k k2 : String) (es : List (String × V)) (hne : k2 ≠ k) :
    lookup k2 (deleteEntries k es) = lookup k2 es := by
  induction es with
  | nil => rfl
  | cons e es ih =>
    by_cases he : e.1 = k
    · have he2 : ¬ e.1 = k2 := fun h => hne (h.symm.trans he)
      have hd : deleteEntries k (e :: es) = deleteEntries k es := by
        simp [deleteEntries, List.filter_cons, he]
      rw [hd, ih]; simp [lookup, he2]
    · have hd : deleteEntries k (e :: es) = e :: deleteEntries k es := by
        simp [deleteEntries, List.filter_cons, he]
      rw [hd]
      by_cases he2 : e.1 = k2
      · simp [lookup, he2]
      · simp only [lookup, he2, if_false]; exact ih

theorem deleteEntries_of_lookup_none (k : String) (es : List (String × V))
    (h : lookup k es = none) : deleteEntries k es = es := by
  rw [lookup_eq_none_iff] at h
  simp only [deleteEntries, List.filter_eq_self]
  intro e he
  have : e.1 ≠ k := fun hk => h (hk ▸ List.mem_map_of_mem Prod.fst he)
  simpa using this

theorem lookup_of_mem (es : List (String × V)) (hnd : (es.map Prod.fst).Nodup)
    (e : String × V) (he : e ∈ es) : lookup e.1 es = some e.2 := by
  induction es with
  | nil => cases he
  | cons x xs ih =>
    rw [List.map_cons, List.nodup_cons] at hnd
    rcases List.mem_cons.1 he with rfl | hin
    · simp [lookup]
    · have hx : ¬ x.1 = e.1 := fun hx => hnd.1 (hx ▸ List.mem_map_of_mem Prod.fst hin)
      simp only [lookup, hx, if_false]
      exact ih hnd.2 hin

theorem mem_of_lookup (es : List (String × V)) (k : String) (v : V)
    (h : lookup k es = some v) : (k, v) ∈ es := by
  induction es with
  | nil => simp [lookup] at h
  | cons x xs ih =>
    by_cases hx : x.1 = k
    · simp only [lookup, hx, if_true, Option.some.injEq] at h
      have : x = (k, v) := Prod.ext hx h
      simp [this]
    · simp only [lookup, hx, if_false] at h
      exact List.mem_cons_of_mem _ (ih h)

theorem get?_set_self (m : GoMap V) (k : String) (v : V) : (m.set k v).get? k = some v :=
  lookup_setEntries_self k v m.entries

theorem get?_set_other (m : GoMap V) (k k2 : String) (v : V) (hne : k2 ≠ k) :
    (m.set k v).get? k2 = m.get? k2 :=
  lookup_setEntries_other k k2 v m.entries hne

theorem get?_delete_self (m : GoMap V) (k : String) : (m.delete k).get? k = none :=
  lookup_deleteEntries_self k m.entries

theorem get?_delete_other (m : GoMap V) (k k2 : String) (hne : k2 ≠ k) :
    (m.delete k).get? k2 = m.get? k2 :=
  lookup_deleteEntries_other k k2 m.entries hne

theorem delete_of_get?_none (m : GoMap V) (k : String) (h : m.get? k = none) :
    m.delete k = m :=
  ext_entries (deleteEntries_of_lookup_none k m.entries h)

theorem get?_of_mem (m : GoMap V) (e : String × V) (he : e ∈ m.entries) :
    m.get? e.1 = some e.2 :=
  lookup_of_mem m.entries m.nodup e he

/-- The number of entries stored under a key is one if the key is present. -/
theorem count_key_of_get? (m : GoMap V) (k : String) (v : V) (h : m.get? k = some v) :
    (m.entries.map Prod.fst).count k = 1 :=
  List.count_eq_one_of_mem m.nodup
    (List.mem_map_of_mem Prod.fst (mem_of_lookup m.entries k v h))

end GoMap

/-! ## Join and Leave -/

theorem KeyedByID.set {users : GoMap User} (hk : KeyedByID users) (user : User) :
    KeyedByID (users.set user.ID user) := by
  intro e he
  simp only [GoMap.set, GoMap.setEntries] at he
  split at he
  · rcases List.mem_map.1 he with ⟨x, hx, rfl⟩
    by_cases hxk : x.1 = user.ID
    · simp [hxk]
    · simpa [hxk] using hk x hx
  · rcases List.mem_append.1 he with h1 | h1
    · exact hk e h1
    · rw [List.mem_singleton] at h1; rw [h1]

theorem KeyedByID.delete {users : GoMap User} (hk : KeyedByID users) (k : String) :
    KeyedByID (users.delete k) := by
  intro e he
  exact hk e (List.mem_of_mem_filter he)

theorem KeyedByID.empty : KeyedByID GoMap.empty := by
  intro e he; cases he

/-- Under `KeyedByID`, the identities read by `GetUsers` are the keys. -/
theorem KeyedByID.getUsers_iff {r : Room} (hk : KeyedByID r.users) (id : String) :
    (∃ u ∈ r.GetUsers, u.ID = id) ↔ r.users.contains id = true := by
  simp only [Room.GetUsers, GoMap.values, GoMap.contains, GoMap.get?, GoMap.lookup_isSome_iff,
    List.mem_map]
  constructor
  · rintro ⟨u, ⟨e, he, rfl⟩, rfl⟩
    exact ⟨e, he, (hk e he).symm⟩
  · rintro ⟨e, he, rfl⟩
    exact ⟨e.2, ⟨e, he, rfl⟩, hk e he⟩

section RoomFacts

variable (SendEvent : User → Event → Chans → Chans × Option String)

theorem Room.handle_leave_absent (user : User) (s : State)
    (h : s.room.users.contains user.ID = false) :
    Room.handle SendEvent (.leave user) s
      = .ok { s with spawned := s.spawned ++ [.BroadcastEventLeave user] } := by
  have hget : s.room.users.get? user.ID = none := by
    cases hg : s.room.users.get? user.ID with
    | none => rfl
    | some x => simp [GoMap.contains, hg] at h
  simp [Room.handle, hget]

theorem Room.handle_leave_present (user : User) (s : State)
    (h : s.room.users.contains user.ID = true) :
    Room.handle SendEvent (.leave user) s
      = if (s.chans user.send).closed then
          .panic "close of closed channel"
            { s with room := { s.room with users := s.room.users.delete user.ID } }
        else
          .ok { room := { s.room with users := s.room.users.delete user.ID },
                chans := s.chans.upd user.send { s.chans user.send with closed := true },
                spawned := s.spawned ++ [.BroadcastEventLeave user],
                calls := s.calls } := by
  cases hg : s.room.users.get? user.ID with
  | none => simp [GoMap.contains, hg] at h
  | some x =>
    by_cases hc : (s.chans user.send).closed = true
    · simp [Room.handle, hg, closeChan, hc]
    · simp [Room.handle, hg, closeChan, hc]

/-- C4: handling `Leave(participant)` in `Room.run`.  If the participant's
identity is in membership, the entry is removed and the participant's sink is
closed, no other sink being touched (the handling completes exactly when that
sink was not closed already; on a closed sink `close` panics after the entry has
been removed).  If the identity is absent, the handling completes with
membership and every sink unchanged.  Handling the Leave a second time leaves
membership as the first handling left it and closes nothing. -/
theorem Room.leave_removes_and_closes (user : User) (s : State) :
    (s.room.users.contains user.ID = true →
      (Room.handle SendEvent (.leave user) s).state.room.users = s.room.users.delete user.ID ∧
      (Room.handle SendEvent (.leave user) s).state.room.users.contains user.ID = false ∧
      ((Room.handle SendEvent (.leave user) s).state.chans user.send).closed = true ∧
      (∀ c, c ≠ user.send →
        (Room.handle SendEvent (.leave user) s).state.chans c = s.chans c) ∧
      ((Room.handle SendEvent (.leave user) s).isOk = true ↔
        (s.chans user.send).closed = false)) ∧
    (s.room.users.contains user.ID = false →
      Room.handle SendEvent (.leave user) s
        = .ok { s with spawned := s.spawned ++ [.BroadcastEventLeave user] }) ∧
    (Room.handle SendEvent (.leave user) (Room.handle SendEvent (.leave user) s).state
      = .ok { (Room.handle SendEvent (.leave user) s).state with
              spawned := (Room.handle SendEvent (.leave user) s).state.spawned
                ++ [.BroadcastEventLeave user] }) := by
  have habs : ∀ st : State, st.room.users.contains user.ID = false →
      (Room.handle SendEvent (.leave user) st).state.room.users.contains user.ID = false := by
    intro st hst
    rw [Room.handle_leave_absent SendEvent user st hst]
    exact hst
  have hpres : s.room.users.contains user.ID = true →
      (Room.handle SendEvent (.leave user) s).state.room.users = s.room.users.delete user.ID ∧
      (Room.handle SendEvent (.leave user) s).state.room.users.contains user.ID = false ∧
      ((Room.handle SendEvent (.leave user) s).state.chans user.send).closed = true ∧
      (∀ c, c ≠ user.send →
        (Room.handle SendEvent (.leave user) s).state.chans c = s.chans c) ∧
      ((Room.handle SendEvent (.leave user) s).isOk = true ↔
        (s.chans user.send).closed = false) := by
    intro h
    rw [Room.handle_leave_present SendEvent user s h]
    by_cases hc : (s.chans user.send).closed = true
    · simp [hc, Result.state, Result.isOk, GoMap.contains, GoMap.get?_delete_self]
    · simp only [hc, Bool.false_eq_true, if_false, Result.state, Result.isOk, Chans.upd, if_true,
        GoMap.contains, GoMap.get?_delete_self, Option.isSome_none, true_and, true_iff]
      refine ⟨?_, by simp [hc]⟩
      intro c hne
      simp [hne]
  refine ⟨hpres, Room.handle_leave_absent SendEvent user s, ?_⟩
  apply Room.handle_leave_absent
  cases hmem : s.room.users.contains user.ID with
  | true => exact (hpres hmem).2.1
  | false => exact habs s hmem

theorem mostRecent_cons (id : String) (m : Msg) (ms : List Msg) :
    mostRecent id (m :: ms)
      = match mostRecent id ms with
        | some x => some x
        | none => if m.carries id then some m else none := by
  unfold mostRecent
  by_cases hm : m.carries id = true
  · rw [List.filter_cons_of_pos hm, List.getLast?_cons]
    cases (List.filter (Msg.carries id) ms).getLast? <;> simp [hm]
  · rw [List.filter_cons_of_neg hm]
    cases (List.filter (Msg.carries id) ms).getLast? <;> simp [hm]

/-- Membership after one Join or Leave, for the identity `id`. -/
theorem Room.handle_joinLeave_contains (id : String) (m : Msg)
    (hm : m.isJoinOrLeave = true) (s : State) :
    (Room.handle SendEvent m s).state.room.users.contains id
      = if m.carries id then m.isJoin else s.room.users.contains id := by
  cases m with
  | join user =>
    by_cases hid : user.ID = id
    · subst hid
      simp [Room.handle, Result.state, Msg.carries, Msg.isJoin, GoMap.contains,
        GoMap.get?_set_self]
    · have hne : id ≠ user.ID := fun h => hid h.symm
      simp [Room.handle, Result.state, Msg.carries, hid, GoMap.contains,
        GoMap.get?_set_other _ _ _ _ hne]
  | leave user =>
    cases hmem : s.room.users.contains user.ID with
    | false =>
      rw [Room.handle_leave_absent SendEvent user s hmem]
      by_cases hid : user.ID = id
      · subst hid; simp [Result.state, Msg.carries, Msg.isJoin, hmem]
      · simp [Result.state, Msg.carries, hid]
    | true =>
      have hst : (Room.handle SendEvent (.leave user) s).state.room.users
          = s.room.users.delete user.ID := by
        rw [Room.handle_leave_present SendEvent user s hmem]
        by_cases hc : (s.chans user.send).closed = true <;> simp [hc, Result.state]
      rw [hst]
      by_cases hid : user.ID = id
      · subst hid; simp [Msg.carries, Msg.isJoin, GoMap.contains, GoMap.get?_delete_self]
      · have hne : id ≠ user.ID := fun h => hid h.symm
        simp [Msg.carries, hid, GoMap.contains, GoMap.get?_delete_other _ _ _ hne]
  | broadcast message => simp [Msg.isJoinOrLeave] at hm
  | request encoded ack => simp [Msg.isJoinOrLeave] at hm

/-- One Join or Leave keeps every entry stored under its participant's identity. -/
theorem Room.handle_joinLeave_keyed (m : Msg) (hm : m.isJoinOrLeave = true) (s : State)
    (hk : KeyedByID s.room.users) :
    KeyedByID (Room.handle SendEvent m s).state.room.users := by
  cases m with
  | join user => exact hk.set user
  | leave user =>
    cases hmem : s.room.users.contains user.ID with
    | false =>
      rw [Room.handle_leave_absent SendEvent user s hmem]; exact hk
    | true =>
      rw [Room.handle_leave_present SendEvent user s hmem]
      by_cases hc : (s.chans user.send).closed = true
      · simp only [hc, if_true, Result.state]; exact hk.delete user.ID
      · simp only [hc, Bool.false_eq_true, if_false, Result.state]; exact hk.delete user.ID
  | broadcast message => simp [Msg.isJoinOrLeave] at hm
  | request encoded ack => simp [Msg.isJoinOrLeave] at hm

theorem Room.handled_of_ok (evs : List Msg) (s : State)
    (h : (Room.run SendEvent evs s).isOk = true) : Room.handled SendEvent evs s = evs := by
  induction evs generalizing s with
  | nil => rfl
  | cons m ms ih =>
    simp only [Room.run, Room.handled] at h ⊢
    cases h1 : Room.handle SendEvent m s with
    | ok s1 =>
      rw [h1] at h
      simp only [List.cons.injEq, true_and]
      exact ih s1 h
    | panic err s1 =>
      rw [h1] at h
      simp [Result.isOk] at h

/-- Membership when a run of Joins and Leaves stops, from any starting state. -/
theorem Room.run_joinLeave_contains (id : String) (evs : List Msg)
    (hjl : ∀ m ∈ evs, m.isJoinOrLeave = true) (s : State) :
    (Room.run SendEvent evs s).state.room.users.contains id
      = match mostRecent id (Room.handled SendEvent evs s) with
        | some (.join _) => true
        | some _ => false
        | none => s.room.users.contains id := by
  induction evs generalizing s with
  | nil => simp [Room.run, Room.handled, Result.state, mostRecent]
  | cons m ms ih =>
    have hm := hjl m (List.mem_cons_self m ms)
    have hstep := Room.handle_joinLeave_contains SendEvent id m hm s
    simp only [Room.run, Room.handled]
    cases h1 : Room.handle SendEvent m s with
    | ok s1 =>
      rw [h1] at hstep
      simp only [Result.state] at hstep
      simp only []
      rw [ih (fun x hx => hjl x (List.mem_cons_of_mem m hx)) s1, mostRecent_cons]
      cases hrec : mostRecent id (Room.handled SendEvent ms s1) with
      | some x => cases x <;> rfl
      | none =>
        simp only [hstep]
        by_cases hc : m.carries id = true
        · simp only [hc, if_true]
          cases m <;> simp_all [Msg.carries, Msg.isJoin]
        · simp [hc]
    | panic err s1 =>
      rw [h1] at hstep
      simp only [Result.state] at hstep
      simp only [Result.state, hstep, mostRecent_cons, mostRecent, List.filter_nil,
        List.getLast?_nil]
      by_cases hc : m.carries id = true
      · simp only [hc, if_true]
        cases m <;> simp_all [Msg.carries, Msg.isJoin]
      · simp [hc]

theorem Room.run_joinLeave_keyed (evs : List Msg)
    (hjl : ∀ m ∈ evs, m.isJoinOrLeave = true) (s : State) (hk : KeyedByID s.room.users) :
    KeyedByID (Room.run SendEvent evs s).state.room.users := by
  induction evs generalizing s with
  | nil => exact hk
  | cons m ms ih =>
    have hstep := Room.handle_joinLeave_keyed SendEvent m (hjl m (List.mem_cons_self m ms)) s hk
    simp only [Room.run]
    cases h1 : Room.handle SendEvent m s with
    | ok s1 =>
      rw [h1] at hstep
      exact ih (fun x hx => hjl x (List.mem_cons_of_mem m hx)) s1 hstep
    | panic err s1 =>
      rw [h1] at hstep
      exact hstep

/-- C1: for every finite sequence of Join and Leave events that `Room.run`
processes one at a time from an empty membership, the resulting membership
contains an identity (as a key of the map, and as the identity of a participant
returned by `GetUsers`) if and only if the most recent event of the sequence
carrying that identity is a Join.  More generally, when the loop stops, having
handled the whole sequence or having panicked on one of its events, membership
reflects in that way the events received so far (`Room.handled`), which are the
whole sequence when the loop did not panic. -/
theorem Room.run_membership_last_join (evs : List Msg) (s : State)
    (hempty : s.room.users = GoMap.empty)
    (hjl : ∀ m ∈ evs, m.isJoinOrLeave = true) (id : String) :
    (∀ s2, Room.run SendEvent evs s = .ok s2 →
      (s2.room.users.contains id = true ↔ lastIsJoin id evs = true) ∧
      ((∃ u ∈ s2.room.GetUsers, u.ID = id) ↔ lastIsJoin id evs = true)) ∧
    (((Room.run SendEvent evs s).state.room.users.contains id = true ↔
        lastIsJoin id (Room.handled SendEvent evs s) = true) ∧
      ((∃ u ∈ (Room.run SendEvent evs s).state.room.GetUsers, u.ID = id) ↔
        lastIsJoin id (Room.handled SendEvent evs s) = true)) ∧
    ((Room.run SendEvent evs s).isOk = true → Room.handled SendEvent evs s = evs) := by
  have hk : KeyedByID (Room.run SendEvent evs s).state.room.users :=
    Room.run_joinLeave_keyed SendEvent evs hjl s (hempty ▸ KeyedByID.empty)
  have hc := Room.run_joinLeave_contains SendEvent id evs hjl s
  have hiff : (Room.run SendEvent evs s).state.room.users.contains id = true ↔
      lastIsJoin id (Room.handled SendEvent evs s) = true := by
    rw [hc, lastIsJoin, hempty]
    cases mostRecent id (Room.handled SendEvent evs s) with
    | none => simp [GoMap.contains, GoMap.get?, GoMap.empty, GoMap.lookup]
    | some x => cases x <;> simp
  have hall := And.intro hiff ((hk.getUsers_iff id).trans hiff)
  refine ⟨?_, hall, Room.handled_of_ok SendEvent evs s⟩
  intro s2 hrun
  have hh : Room.handled SendEvent evs s = evs :=
    Room.handled_of_ok SendEvent evs s (by rw [hrun]; rfl)
  rw [hrun, hh] at hall
  exact hall

end RoomFacts

/-! ## Broadcast -/

theorem broadcastBody_excluded (message : broadcastMsg) (user : User) (s : State)
    (h : isExcluded message user = true) :
    broadcastBody message user s = .ok s := by
  simp [broadcastBody, h]

theorem broadcastBody_sent (message : broadcastMsg) (user : User) (s : State)
    (h1 : isExcluded message user = false) (h2 : (s.chans user.send).closed = false)
    (h3 : (s.chans user.send).hasRoom = true) :
    ∃ s1, broadcastBody message user s = .ok s1 ∧ s1.room = s.room ∧
      s1.chans = s.chans.upd user.send
        { s.chans user.send with buf := (s.chans user.send).buf ++ [message.data] } ∧
      s1.spawned = s.spawned ∧ s1.calls = s.calls := by
  simp only [Chan.hasRoom, decide_eq_true_eq] at h3
  simp [broadcastBody, h1, trySend, h2, h3]

theorem broadcastBody_full (message : broadcastMsg) (user : User) (s : State)
    (h1 : isExcluded message user = false) (h2 : (s.chans user.send).closed = false)
    (h3 : (s.chans user.send).hasRoom = false) :
    ∃ s1, broadcastBody message user s = .ok s1 ∧
      s1.room.users = s.room.users.delete user.ID ∧ s1.room.Name = s.room.Name ∧
      s1.room.stereoPlaying = s.room.stereoPlaying ∧
      s1.chans = s.chans.upd user.send { s.chans user.send with closed := true } ∧
      s1.spawned = s.spawned ∧ s1.calls = s.calls := by
  simp only [Chan.hasRoom, decide_eq_false_iff_not] at h3
  simp [broadcastBody, h1, trySend, h2, h3, closeChan]

theorem LoopInv.of_membersLive {s : State} (h : MembersLive s) :
    LoopInv s.room.users.entries s :=
  { present := fun e he => GoMap.get?_of_mem s.room.users e he
    keyed := h.keyed
    keysNodup := s.room.users.nodup
    sinksOpen := h.sinksOpen
    sinksNodup := h.sinksNodup }

theorem LoopInv.head_not_mem {e : String × User} {es : List (String × User)} {s : State}
    (inv : LoopInv (e :: es) s) : ∀ x ∈ es, x.1 ≠ e.1 ∧ x.2.send ≠ e.2.send := by
  intro x hx
  have h1 := (List.nodup_cons.1 (by simpa using inv.keysNodup :
    (e.1 :: es.map Prod.fst).Nodup)).1
  have h2 := (List.nodup_cons.1 (by simpa using inv.sinksNodup :
    (e.2.send :: es.map (fun e => e.2.send)).Nodup)).1
  constructor
  · intro h; exact h1 (h ▸ List.mem_map_of_mem Prod.fst hx)
  · intro h; exact h2 (h ▸ List.mem_map_of_mem (fun e => e.2.send) hx)

theorem LoopInv.step {e : String × User} {es : List (String × User)} {s s1 : State}
    (inv : LoopInv (e :: es) s)
    (hget : ∀ x ∈ es, s1.room.users.get? x.1 = s.room.users.get? x.1)
    (hch : ∀ x ∈ es, s1.chans x.2.send = s.chans x.2.send) : LoopInv es s1 :=
  { present := fun x hx => (hget x hx).trans (inv.present x (List.mem_cons_of_mem e hx))
    keyed := fun x hx => inv.keyed x (List.mem_cons_of_mem e hx)
    keysNodup := (List.nodup_cons.1 (by simpa using inv.keysNodup :
      (e.1 :: es.map Prod.fst).Nodup)).2
    sinksOpen := fun x hx => by
      rw [hch x hx]; exact inv.sinksOpen x (List.mem_cons_of_mem e hx)
    sinksNodup := (List.nodup_cons.1 (by simpa using inv.sinksNodup :
      (e.2.send :: es.map (fun e => e.2.send)).Nodup)).2 }

/-- An entry of the membership stored under the key of a visited entry is that
entry. -/
theorem LoopInv.eq_head {e : String × User} {es : List (String × User)} {s : State}
    (inv : LoopInv (e :: es) s) (x : String × User) (hx : x ∈ s.room.users.entries)
    (hkey : x.1 = e.1) : x = e := by
  have h1 := GoMap.get?_of_mem s.room.users x hx
  have h2 := inv.present e (List.mem_cons_self e es)
  rw [hkey, h2] at h1
  exact Prod.ext hkey (Option.some.inj h1).symm

/-- The loop of the `broadcast` case over the entries still to visit: it
completes, keeps exactly the entries that are not visited or are kept by the
Broadcast, leaves each visited sink as `sinkAfterBroadcast` says, and touches
nothing else. -/
theorem broadcast_loop (message : broadcastMsg) (es : List (String × User)) (s : State)
    (inv : LoopInv es s) :
    ∃ s2, rangeUsers (broadcastBody message) es s = .ok s2 ∧
      s2.room.users.entries = s.room.users.entries.filter
        (fun x => !decide (x ∈ es) || keptByBroadcast message s.chans x.2) ∧
      (∀ e ∈ es, s2.chans e.2.send = sinkAfterBroadcast message e.2 (s.chans e.2.send)) ∧
      (∀ c, (∀ e ∈ es, e.2.send ≠ c) → s2.chans c = s.chans c) ∧
      s2.room.Name = s.room.Name ∧ s2.room.stereoPlaying = s.room.stereoPlaying ∧
      s2.spawned = s.spawned ∧ s2.calls = s.calls := by
  induction es generalizing s with
  | nil => exact ⟨s, rfl, by simp, by simp, by simp, rfl, rfl, rfl, rfl⟩
  | cons e es ih =>
    have hpres := inv.present e (List.mem_cons_self e es)
    have hne := inv.head_not_mem
    have hnotin : e ∉ es := fun h => (hne e h).1 rfl
    have hopen := inv.sinksOpen e (List.mem_cons_self e es)
    simp only [rangeUsers, hpres]
    by_cases hex : isExcluded message e.2 = true
    · -- the excluded participant is skipped
      rw [broadcastBody_excluded _ _ _ hex]
      obtain ⟨s2, hrun, hu, hc, hf, hn, hp, hsp, hca⟩ :=
        ih s (inv.step (fun _ _ => rfl) (fun _ _ => rfl))
      refine ⟨s2, hrun, ?_, ?_, ?_, hn, hp, hsp, hca⟩
      · rw [hu]
        apply List.filter_congr
        intro x _
        by_cases hxe : x = e
        · subst hxe; simp [hnotin, keptByBroadcast, hex]
        · simp [hxe]
      · intro x hx
        rcases List.mem_cons.1 hx with rfl | hx
        · rw [hf _ (fun y hy => (hne y hy).2)]
          simp [sinkAfterBroadcast, hex]
        · exact hc x hx
      · intro c hcne
        exact hf c (fun y hy => hcne y (List.mem_cons_of_mem e hy))
    · have hex : isExcluded message e.2 = false := by simpa using hex
      by_cases hroom : (s.chans e.2.send).hasRoom = true
      · -- the sink takes the payload
        obtain ⟨s1, hb, hr1, hc1, hs1, hl1⟩ := broadcastBody_sent _ _ _ hex hopen hroom
        rw [hb]
        have hch : ∀ x ∈ es, s1.chans x.2.send = s.chans x.2.send := by
          intro x hx; simp [hc1, Chans.upd, (hne x hx).2]
        obtain ⟨s2, hrun, hu, hc, hf, hn, hp, hsp, hca⟩ :=
          ih s1 (inv.step (fun _ _ => by rw [hr1]) hch)
        refine ⟨s2, hrun, ?_, ?_, ?_, by rw [hn, hr1], by rw [hp, hr1], by rw [hsp, hs1],
          by rw [hca, hl1]⟩
        · rw [hu, hr1]
          apply List.filter_congr
          intro x _
          by_cases hxe : x = e
          · subst hxe; simp [hnotin, keptByBroadcast, hroom]
          · by_cases hxin : x ∈ es
            · simp [hxe, hxin, keptByBroadcast, hch x hxin]
            · simp [hxe, hxin]
        · intro x hx
          rcases List.mem_cons.1 hx with rfl | hx
          · rw [hf _ (fun y hy => (hne y hy).2), hc1]
            simp [sinkAfterBroadcast, hex, hroom, Chans.upd]
          · rw [hc x hx, hch x hx]
        · intro c hcne
          rw [hf c (fun y hy => hcne y (List.mem_cons_of_mem e hy)), hc1]
          have : c ≠ e.2.send := fun h => hcne e (List.mem_cons_self e es) h.symm
          simp [Chans.upd, this]
      · -- the sink is full: the member is evicted
        have hroom : (s.chans e.2.send).hasRoom = false := by simpa using hroom
        obtain ⟨s1, hb, hu1, hn1, hp1, hc1, hs1, hl1⟩ :=
          broadcastBody_full _ _ _ hex hopen hroom
        rw [hb]
        have hid : e.2.ID = e.1 := inv.keyed e (List.mem_cons_self e es)
        have hch : ∀ x ∈ es, s1.chans x.2.send = s.chans x.2.send := by
          intro x hx; simp [hc1, Chans.upd, (hne x hx).2]
        have hget : ∀ x ∈ es, s1.room.users.get? x.1 = s.room.users.get? x.1 := by
          intro x hx
          rw [hu1]
          exact GoMap.get?_delete_other _ _ _ (hid ▸ (hne x hx).1)
        obtain ⟨s2, hrun, hu, hc, hf, hn, hp, hsp, hca⟩ := ih s1 (inv.step hget hch)
        refine ⟨s2, hrun, ?_, ?_, ?_, by rw [hn, hn1], by rw [hp, hp1], by rw [hsp, hs1],
          by rw [hca, hl1]⟩
        · rw [hu, hu1]
          simp only [GoMap.delete, GoMap.deleteEntries, List.filter_filter]
          apply List.filter_congr
          intro x hxmem
          by_cases hxe : x = e
          · subst hxe; simp [hnotin, keptByBroadcast, hroom, hex, hid]
          · have hk : x.1 ≠ e.2.ID := fun h => hxe (inv.eq_head x hxmem (h.trans hid))
            by_cases hxin : x ∈ es
            · simp [hxe, hxin, keptByBroadcast, hch x hxin, hk]
            · simp [hxe, hxin, hk]
        · intro x hx
          rcases List.mem_cons.1 hx with rfl | hx
          · rw [hf _ (fun y hy => (hne y hy).2), hc1]
            simp [sinkAfterBroadcast, hex, hroom, Chans.upd]
          · rw [hc x hx, hch x hx]
        · intro c hcne
          rw [hf c (fun y hy => hcne y (List.mem_cons_of_mem e hy)), hc1]
          have : c ≠ e.2.send := fun h => hcne e (List.mem_cons_self e es) h.symm
          simp [Chans.upd, this]

section BroadcastFacts

variable (SendEvent : User → Event → Chans → Chans × Option String)

/-- One Broadcast on a room in service: the handling completes, membership
keeps exactly the members kept by the Broadcast, every member's sink is as
`sinkAfterBroadcast` says, and nothing else changes. -/
theorem Room.handle_broadcast_live (message : broadcastMsg) (s : State)
    (live : MembersLive s) :
    ∃ s2, Room.handle SendEvent (.broadcast message) s = .ok s2 ∧
      s2.room.users.entries = s.room.users.entries.filter
        (fun x => keptByBroadcast message s.chans x.2) ∧
      (∀ e ∈ s.room.users.entries,
        s2.chans e.2.send = sinkAfterBroadcast message e.2 (s.chans e.2.send)) ∧
      (∀ c, (∀ e ∈ s.room.users.entries, e.2.send ≠ c) → s2.chans c = s.chans c) ∧
      s2.room.Name = s.room.Name ∧ s2.room.stereoPlaying = s.room.stereoPlaying ∧
      s2.spawned = s.spawned ∧ s2.calls = s.calls := by
  obtain ⟨s2, hrun, hu, hrest⟩ :=
    broadcast_loop message s.room.users.entries s (LoopInv.of_membersLive live)
  refine ⟨s2, hrun, ?_, hrest⟩
  rw [hu]
  apply List.filter_congr
  intro x hx
  simp [hx]

/-- A member that a Broadcast does not keep is no longer read by `GetUsers`, and
its identity is no longer a key of the membership. -/
theorem not_kept_absent (message : broadcastMsg) (s s2 : State) (live : MembersLive s)
    (hu : s2.room.users.entries = s.room.users.entries.filter
      (fun x => keptByBroadcast message s.chans x.2))
    (user : User) (hmem : user ∈ s.room.GetUsers)
    (hnk : keptByBroadcast message s.chans user = false) :
    user ∉ s2.room.GetUsers ∧ s2.room.users.contains user.ID = false := by
  constructor
  · intro h2
    simp only [Room.GetUsers, GoMap.values, List.mem_map] at h2
    obtain ⟨x, hx, rfl⟩ := h2
    rw [hu, List.mem_filter] at hx
    rw [hx.2] at hnk
    cases hnk
  · cases hc : s2.room.users.contains user.ID with
    | false => rfl
    | true =>
      exfalso
      simp only [GoMap.contains, GoMap.get?, GoMap.lookup_isSome_iff, List.mem_map] at hc
      obtain ⟨x, hx, hxk⟩ := hc
      rw [hu, List.mem_filter] at hx
      simp only [Room.GetUsers, GoMap.values, List.mem_map] at hmem
      obtain ⟨e, he, rfl⟩ := hmem
      have hxe : x.1 = e.1 := by rw [hxk, live.keyed e he]
      have h1 := GoMap.get?_of_mem s.room.users x hx.1
      have h2 := GoMap.get?_of_mem s.room.users e he
      rw [hxe, h2] at h1
      have h3 : e.2 = x.2 := Option.some.inj h1
      rw [h3, hx.2] at hnk
      cases hnk

/-- C2 (amended): on a room in service (members stored under their identity,
with open and pairwise distinct sinks), handling one `Broadcast(payload,
excluded)` in `Room.run` completes and, for every member in membership when the
event is handled: appends nothing to the sink of the member whose identity
equals the excluded participant's identity; appends the payload exactly once,
at the end, to the sink of every other member whose sink has room; and appends
nothing to the sink of every other member whose sink is full, which is closed
instead while the member is removed from membership. -/
theorem Room.broadcast_delivers_unless_full (message : broadcastMsg) (s : State)
    (live : MembersLive s) :
    ∃ s2, Room.handle SendEvent (.broadcast message) s = .ok s2 ∧
      ∀ user ∈ s.room.GetUsers,
        (isExcluded message user = true → s2.chans user.send = s.chans user.send) ∧
        (isExcluded message user = false → (s.chans user.send).hasRoom = true →
          s2.chans user.send = { s.chans user.send with
            buf := (s.chans user.send).buf ++ [message.data] }) ∧
        (isExcluded message user = false → (s.chans user.send).hasRoom = false →
          s2.chans user.send = { s.chans user.send with closed := true } ∧
          user ∉ s2.room.GetUsers) := by
  obtain ⟨s2, hrun, hu, hc, _⟩ := Room.handle_broadcast_live SendEvent message s live
  refine ⟨s2, hrun, ?_⟩
  intro user hmem
  have hmem2 := hmem
  simp only [Room.GetUsers, GoMap.values, List.mem_map] at hmem2
  obtain ⟨e, he, rfl⟩ := hmem2
  refine ⟨?_, ?_, ?_⟩
  · intro hex; rw [hc e he]; simp [sinkAfterBroadcast, hex]
  · intro hex hroom; rw [hc e he]; simp [sinkAfterBroadcast, hex, hroom]
  · intro hex hroom
    refine ⟨by rw [hc e he]; simp [sinkAfterBroadcast, hex, hroom], ?_⟩
    exact (not_kept_absent message s s2 live hu e.2 hmem
      (by simp [keptByBroadcast, hex, hroom])).1

/-- C3 (amended): on a room in service, every member whose sink is full at the
moment a Broadcast event is handled by `Room.run`, and whose identity differs
from the identity of the excluded participant of that Broadcast, is absent from
the membership (as read by `GetUsers`, and as a key) immediately after the
event has been handled. -/
theorem Room.broadcast_evicts_full_unless_excluded (message : broadcastMsg) (s : State)
    (live : MembersLive s) :
    ∃ s2, Room.handle SendEvent (.broadcast message) s = .ok s2 ∧
      ∀ user ∈ s.room.GetUsers, (s.chans user.send).hasRoom = false →
        isExcluded message user = false →
        user ∉ s2.room.GetUsers ∧ s2.room.users.contains user.ID = false := by
  obtain ⟨s2, hrun, hu, _⟩ := Room.handle_broadcast_live SendEvent message s live
  refine ⟨s2, hrun, ?_⟩
  intro user hmem hroom hex
  exact not_kept_absent message s s2 live hu user hmem (by simp [keptByBroadcast, hex, hroom])

theorem LoopReady.of_ready {message : broadcastMsg} {s : State}
    (h : BroadcastReady message s) : LoopReady message s.room.users.entries s :=
  { present := fun e he => GoMap.get?_of_mem s.room.users e he
    keyed := h.keyed
    keysNodup := s.room.users.nodup
    sinksOpen := h.sinksOpen
    sinksNodup := h.sinksNodup }

theorem LoopReady.head_fresh {message : broadcastMsg} {e : String × User}
    {es : List (String × User)} {s : State} (inv : LoopReady message (e :: es) s) :
    ∀ x ∈ es, x.1 ≠ e.1 ∧ x.2.send ≠ e.2.send := by
  intro x hx
  have h1 := (List.nodup_cons.1 (by simpa using inv.keysNodup :
    (e.1 :: es.map Prod.fst).Nodup)).1
  have h2 := (List.nodup_cons.1 (by simpa using inv.sinksNodup :
    (e.2.send :: es.map (fun e => e.2.send)).Nodup)).1
  constructor
  · intro h; exact h1 (h ▸ List.mem_map_of_mem Prod.fst hx)
  · intro h; exact h2 (h ▸ List.mem_map_of_mem (fun e => e.2.send) hx)

theorem LoopReady.tail {message : broadcastMsg} {e : String × User}
    {es : List (String × User)} {s s1 : State} (inv : LoopReady message (e :: es) s)
    (hget : ∀ x ∈ es, s1.room.users.get? x.1 = s.room.users.get? x.1)
    (hch : ∀ x ∈ es, s1.chans x.2.send = s.chans x.2.send) : LoopReady message es s1 :=
  { present := fun x hx => (hget x hx).trans (inv.present x (List.mem_cons_of_mem e hx))
    keyed := fun x hx => inv.keyed x (List.mem_cons_of_mem e hx)
    keysNodup := (List.nodup_cons.1 (by simpa using inv.keysNodup :
      (e.1 :: es.map Prod.fst).Nodup)).2
    sinksOpen := fun x hx hex => by
      rw [hch x hx]; exact inv.sinksOpen x (List.mem_cons_of_mem e hx) hex
    sinksNodup := (List.nodup_cons.1 (by simpa using inv.sinksNodup :
      (e.2.send :: es.map (fun e => e.2.send)).Nodup)).2 }

theorem LoopReady.entry_eq_head {message : broadcastMsg} {e : String × User}
    {es : List (String × User)} {s : State} (inv : LoopReady message (e :: es) s)
    (x : String × User) (hx : x ∈ s.room.users.entries) (hkey : x.1 = e.1) : x = e := by
  have h1 := GoMap.get?_of_mem s.room.users x hx
  have h2 := inv.present e (List.mem_cons_self e es)
  rw [hkey, h2] at h1
  exact Prod.ext hkey (Option.some.inj h1).symm

/-- The loop of the `broadcast` case over the entries still to visit, when only
the sinks of the members that are not excluded are known to be open: it
completes, keeps exactly the entries that are not visited or are kept by the
Broadcast, leaves each visited sink as `sinkAfterBroadcast` says, and touches
nothing else. -/
theorem broadcast_loop_ready (message : broadcastMsg) (es : List (String × User))
    (s : State) (inv : LoopReady message es s) :
    ∃ s2, rangeUsers (broadcastBody message) es s = .ok s2 ∧
      s2.room.users.entries = s.room.users.entries.filter
        (fun x => !decide (x ∈ es) || keptByBroadcast message s.chans x.2) ∧
      (∀ e ∈ es, s2.chans e.2.send = sinkAfterBroadcast message e.2 (s.chans e.2.send)) ∧
      (∀ c, (∀ e ∈ es, e.2.send ≠ c) → s2.chans c = s.chans c) ∧
      s2.room.Name = s.room.Name ∧ s2.room.stereoPlaying = s.room.stereoPlaying ∧
      s2.spawned = s.spawned ∧ s2.calls = s.calls := by
  induction es generalizing s with
  | nil => exact ⟨s, rfl, by simp, by simp, by simp, rfl, rfl, rfl, rfl⟩
  | cons e es ih =>
    have hpres := inv.present e (List.mem_cons_self e es)
    have hne := inv.head_fresh
    have hnotin : e ∉ es := fun h => (hne e h).1 rfl
    simp only [rangeUsers, hpres]
    by_cases hex : isExcluded message e.2 = true
    · rw [broadcastBody_excluded _ _ _ hex]
      obtain ⟨s2, hrun, hu, hc, hf, hn, hp, hsp, hca⟩ :=
        ih s (inv.tail (fun _ _ => rfl) (fun _ _ => rfl))
      refine ⟨s2, hrun, ?_, ?_, ?_, hn, hp, hsp, hca⟩
      · rw [hu]
        apply List.filter_congr
        intro x _
        by_cases hxe : x = e
        · subst hxe; simp [hnotin, keptByBroadcast, hex]
        · simp [hxe]
      · intro x hx
        rcases List.mem_cons.1 hx with rfl | hx
        · rw [hf _ (fun y hy => (hne y hy).2)]
          simp [sinkAfterBroadcast, hex]
        · exact hc x hx
      · intro c hcne
        exact hf c (fun y hy => hcne y (List.mem_cons_of_mem e hy))
    · have hex : isExcluded message e.2 = false := by simpa using hex
      have hopen := inv.sinksOpen e (List.mem_cons_self e es) hex
      by_cases hroom : (s.chans e.2.send).hasRoom = true
      · obtain ⟨s1, hb, hr1, hc1, hs1, hl1⟩ := broadcastBody_sent _ _ _ hex hopen hroom
        rw [hb]
        have hch : ∀ x ∈ es, s1.chans x.2.send = s.chans x.2.send := by
          intro x hx; simp [hc1, Chans.upd, (hne x hx).2]
        obtain ⟨s2, hrun, hu, hc, hf, hn, hp, hsp, hca⟩ :=
          ih s1 (inv.tail (fun _ _ => by rw [hr1]) hch)
        refine ⟨s2, hrun, ?_, ?_, ?_, by rw [hn, hr1], by rw [hp, hr1], by rw [hsp, hs1],
          by rw [hca, hl1]⟩
        · rw [hu, hr1]
          apply List.filter_congr
          intro x _
          by_cases hxe : x = e
          · subst hxe; simp [hnotin, keptByBroadcast, hroom]
          · by_cases hxin : x ∈ es
            · simp [hxe, hxin, keptByBroadcast, hch x hxin]
            · simp [hxe, hxin]
        · intro x hx
          rcases List.mem_cons.1 hx with rfl | hx
          · rw [hf _ (fun y hy => (hne y hy).2), hc1]
            simp [sinkAfterBroadcast, hex, hroom, Chans.upd]
          · rw [hc x hx, hch x hx]
        · intro c hcne
          rw [hf c (fun y hy => hcne y (List.mem_cons_of_mem e hy)), hc1]
          have : c ≠ e.2.send := fun h => hcne e (List.mem_cons_self e es) h.symm
          simp [Chans.upd, this]
      · have hroom : (s.chans e.2.send).hasRoom = false := by simpa using hroom
        obtain ⟨s1, hb, hu1, hn1, hp1, hc1, hs1, hl1⟩ :=
          broadcastBody_full _ _ _ hex hopen hroom
        rw [hb]
        have hid : e.2.ID = e.1 := inv.keyed e (List.mem_cons_self e es)
        have hch : ∀ x ∈ es, s1.chans x.2.send = s.chans x.2.send := by
          intro x hx; simp [hc1, Chans.upd, (hne x hx).2]
        have hget : ∀ x ∈ es, s1.room.users.get? x.1 = s.room.users.get? x.1 := by
          intro x hx
          rw [hu1]
          exact GoMap.get?_delete_other _ _ _ (hid ▸ (hne x hx).1)
        obtain ⟨s2, hrun, hu, hc, hf, hn, hp, hsp, hca⟩ := ih s1 (inv.tail hget hch)
        refine ⟨s2, hrun, ?_, ?_, ?_, by rw [hn, hn1], by rw [hp, hp1], by rw [hsp, hs1],
          by rw [hca, hl1]⟩
        · rw [hu, hu1]
          simp only [GoMap.delete, GoMap.deleteEntries, List.filter_filter]
          apply List.filter_congr
          intro x hxmem
          by_cases hxe : x = e
          · subst hxe; simp [hnotin, keptByBroadcast, hroom, hex, hid]
          · have hk : x.1 ≠ e.2.ID := fun h => hxe (inv.entry_eq_head x hxmem (h.trans hid))
            by_cases hxin : x ∈ es
            · simp [hxe, hxin, keptByBroadcast, hch x hxin, hk]
            · simp [hxe, hxin, hk]
        · intro x hx
          rcases List.mem_cons.1 hx with rfl | hx
          · rw [hf _ (fun y hy => (hne y hy).2), hc1]
            simp [sinkAfterBroadcast, hex, hroom, Chans.upd]
          · rw [hc x hx, hch x hx]
        · intro c hcne
          rw [hf c (fun y hy => hcne y (List.mem_cons_of_mem e hy)), hc1]
          have : c ≠ e.2.send := fun h => hcne e (List.mem_cons_self e es) h.symm
          simp [Chans.upd, this]

/-- C18 (amended): for every room whose members are stored under their identity
and have pairwise distinct sinks, and in which the sink of every member other
than the excluded participant is open, handling one Broadcast event in
`Room.run` completes, and the membership after it is exactly the membership
before it (the entries of the map, and the participants read by `GetUsers`)
minus the members whose sink was full and whose identity differs from the
identity of the excluded participant.  In particular the Broadcast adds no
member, does not remove the excluded participant (even when its sink is full),
and leaves the room as it was when no non-excluded member has a full sink.
Among the members, the Broadcast closes the sinks of exactly the removed ones;
the sink of a member that stays is as open or closed as before, and no channel
that is not the sink of a member is touched. -/
theorem Room.broadcast_removes_exactly_full (message : broadcastMsg) (s : State)
    (ready : BroadcastReady message s) :
    ∃ s2, Room.handle SendEvent (.broadcast message) s = .ok s2 ∧
      s2.room.users.entries = s.room.users.entries.filter
        (fun e => isExcluded message e.2 || (s.chans e.2.send).hasRoom) ∧
      s2.room.GetUsers = s.room.GetUsers.filter
        (fun user => isExcluded message user || (s.chans user.send).hasRoom) ∧
      (∀ user, user ∈ s2.room.GetUsers ↔
        user ∈ s.room.GetUsers ∧
          ¬ (isExcluded message user = false ∧ (s.chans user.send).hasRoom = false)) ∧
      (∀ user ∈ s2.room.GetUsers, user ∈ s.room.GetUsers) ∧
      (∀ user ∈ s.room.GetUsers, isExcluded message user = true → user ∈ s2.room.GetUsers) ∧
      ((∀ user ∈ s.room.GetUsers, isExcluded message user = false →
          (s.chans user.send).hasRoom = true) → s2.room = s.room) ∧
      (∀ user ∈ s.room.GetUsers,
        (((s2.chans user.send).closed = true ∧ (s.chans user.send).closed = false) ↔
          user ∉ s2.room.GetUsers)) ∧
      (∀ user ∈ s.room.GetUsers, user ∈ s2.room.GetUsers →
        (s2.chans user.send).closed = (s.chans user.send).closed) ∧
      (∀ c, (∀ user ∈ s.room.GetUsers, user.send ≠ c) → s2.chans c = s.chans c) := by
  obtain ⟨s2, hrun, hu0, hc, hf, hn, hp, _, _⟩ :=
    broadcast_loop_ready message s.room.users.entries s (LoopReady.of_ready ready)
  have hu : s2.room.users.entries = s.room.users.entries.filter
      (fun e => isExcluded message e.2 || (s.chans e.2.send).hasRoom) := by
    rw [hu0]
    apply List.filter_congr
    intro x hx
    simp [hx, keptByBroadcast]
  have hget : s2.room.GetUsers = s.room.GetUsers.filter
      (fun user => isExcluded message user || (s.chans user.send).hasRoom) := by
    simp only [Room.GetUsers, GoMap.values, hu, List.filter_map]
    rfl
  have hmem : ∀ user, user ∈ s2.room.GetUsers ↔
      user ∈ s.room.GetUsers ∧
        ¬ (isExcluded message user = false ∧ (s.chans user.send).hasRoom = false) := by
    intro user
    rw [hget, List.mem_filter]
    cases isExcluded message user <;> cases (s.chans user.send).hasRoom <;> simp
  refine ⟨s2, hrun, hu, hget, hmem, ?_, ?_, ?_, ?_, ?_, ?_⟩
  · intro user h2
    exact ((hmem user).1 h2).1
  · intro user h1 hex
    exact (hmem user).2 ⟨h1, fun h => by rw [hex] at h; cases h.1⟩
  · intro hall
    have hent : s2.room.users.entries = s.room.users.entries := by
      rw [hu, List.filter_eq_self]
      intro e he
      have hin : e.2 ∈ s.room.GetUsers := List.mem_map_of_mem Prod.snd he
      cases hex : isExcluded message e.2 with
      | true => simp
      | false => simp [hall e.2 hin hex]
    have husers : s2.room.users = s.room.users := GoMap.ext_entries hent
    cases hr2 : s2.room with
    | mk n2 u2 p2 =>
      cases hr : s.room with
      | mk n1 u1 p1 =>
        rw [hr2, hr] at hn hp husers
        simp only at hn hp husers
        rw [hn, hp, husers]
  · intro user h1
    have h1b := h1
    simp only [Room.GetUsers, GoMap.values, List.mem_map] at h1b
    obtain ⟨e, he, rfl⟩ := h1b
    have hopen := ready.sinksOpen e he
    rw [hc e he, hmem e.2]
    cases hex : isExcluded message e.2 with
    | true =>
      cases hcl : (s.chans e.2.send).closed <;> simp [sinkAfterBroadcast, hex, hcl, h1]
    | false =>
      have hcl := hopen hex
      cases hroom : (s.chans e.2.send).hasRoom <;>
        simp [sinkAfterBroadcast, hex, hroom, hcl, h1]
  · intro user h1 h2
    have h1b := h1
    simp only [Room.GetUsers, GoMap.values, List.mem_map] at h1b
    obtain ⟨e, he, rfl⟩ := h1b
    have hkept := ((hmem e.2).1 h2).2
    rw [hc e he]
    cases hex : isExcluded message e.2 with
    | true => simp [sinkAfterBroadcast, hex]
    | false =>
      cases hroom : (s.chans e.2.send).hasRoom with
      | true => simp [sinkAfterBroadcast, hex, hroom]
      | false => exact absurd ⟨hex, hroom⟩ hkept
  · intro c hne
    apply hf c
    intro e he
    exact hne e.2 (List.mem_map_of_mem Prod.snd he)

end BroadcastFacts

/-! ## Song events -/

section SongFacts

variable (SendEvent : User → Event → Chans → Chans × Option String)

theorem broadcastSong_loop_ok (operation : String) (song : Option Song)
    (es : List (String × User)) (s : State)
    (hpres : ∀ e ∈ es, s.room.users.get? e.1 = some e.2)
    (hok : ∀ e ∈ es, ∀ h, (SendEvent e.2 { Kind := operation, Song := song } h).2 = none) :
    ∃ s2, rangeUsers (broadcastSongBody SendEvent operation song) es s = .ok s2 ∧
      s2.room = s.room ∧ s2.spawned = s.spawned ∧
      s2.calls = s.calls ++ es.map (fun e => (e.2, { Kind := operation, Song := song })) := by
  induction es generalizing s with
  | nil => exact ⟨s, rfl, rfl, rfl, by simp⟩
  | cons e es ih =>
    have h1 := hpres e (List.mem_cons_self e es)
    have h2 := hok e (List.mem_cons_self e es) s.chans
    simp only [rangeUsers, h1, broadcastSongBody, h2]
    obtain ⟨s2, hrun, hr, hsp, hca⟩ := ih
      { s with chans := (SendEvent e.2 { Kind := operation, Song := song } s.chans).1,
               calls := s.calls ++ [(e.2, { Kind := operation, Song := song })] }
      (fun x hx => hpres x (List.mem_cons_of_mem e hx))
      (fun x hx => hok x (List.mem_cons_of_mem e hx))
    exact ⟨s2, hrun, hr, hsp, by simp [hca]⟩

theorem broadcastSong_loop_fail (operation : String) (song : Option Song)
    (pre post : List (String × User)) (e : String × User) (err : String) (s : State)
    (hpres : ∀ x ∈ pre ++ e :: post, s.room.users.get? x.1 = some x.2)
    (hok : ∀ x ∈ pre, ∀ h, (SendEvent x.2 { Kind := operation, Song := song } h).2 = none)
    (hfail : ∀ h, (SendEvent e.2 { Kind := operation, Song := song } h).2 = some err) :
    ∃ s2, rangeUsers (broadcastSongBody SendEvent operation song) (pre ++ e :: post) s
        = .panic err s2 ∧
      s2.room = s.room ∧ s2.spawned = s.spawned ∧
      s2.calls = s.calls
        ++ (pre ++ [e]).map (fun x => (x.2, { Kind := operation, Song := song })) := by
  induction pre generalizing s with
  | nil =>
    have h1 := hpres e (by simp)
    simp only [List.nil_append, rangeUsers, h1, broadcastSongBody, hfail s.chans]
    exact ⟨_, rfl, rfl, rfl, by simp⟩
  | cons x pre ih =>
    have h1 := hpres x (by simp)
    have h2 := hok x (List.mem_cons_self x pre) s.chans
    simp only [List.cons_append, rangeUsers, h1, broadcastSongBody, h2]
    obtain ⟨s2, hrun, hr, hsp, hca⟩ := ih
      { s with chans := (SendEvent x.2 { Kind := operation, Song := song } s.chans).1,
               calls := s.calls ++ [(x.2, { Kind := operation, Song := song })] }
      (fun y hy => hpres y (by
        rw [List.cons_append]; exact List.mem_cons_of_mem x hy))
      (fun y hy => hok y (List.mem_cons_of_mem x hy))
    exact ⟨s2, hrun, hr, hsp, by simp [hca]⟩

/-- C8: a song request handled by `Room.run`.  If the acknowledgment of the
pipeline is a rejection (no song), the handling completes with no event sent to
any member and membership unchanged (only the transcoding goroutine has been
started).  If the acknowledgment carries a song and `SendEvent` returns nil for
the members, the handling completes, membership is unchanged, and the calls of
`SendEvent` it made are exactly one per current member (in the order the loop
visits them), each with the event of type "enqueue" carrying that song, and
none for anybody else. -/
theorem Room.request_enqueue_once (encoded : String) (s : State) :
    Room.handle SendEvent (.request encoded none) s
      = .ok { s with spawned := s.spawned ++ [.Trans encoded] } ∧
    ∀ song : Song,
      (∀ u ∈ s.room.GetUsers, ∀ h,
        (SendEvent u { Kind := "enqueue", Song := some song } h).2 = none) →
      ∃ s2, Room.handle SendEvent (.request encoded (some song)) s = .ok s2 ∧
        s2.room = s.room ∧
        s2.calls = s.calls
          ++ s.room.GetUsers.map (fun u => (u, { Kind := "enqueue", Song := some song })) := by
  refine ⟨rfl, ?_⟩
  intro song hok
  obtain ⟨s2, hrun, hr, _, hca⟩ := broadcastSong_loop_ok SendEvent "enqueue" (some song)
    s.room.users.entries { s with spawned := s.spawned ++ [.Trans encoded] }
    (fun e he => GoMap.get?_of_mem s.room.users e he)
    (fun e he h => hok e.2 (List.mem_map_of_mem Prod.snd he) h)
  refine ⟨s2, hrun, hr, ?_⟩
  rw [hca]
  simp [Room.GetUsers, GoMap.values, Function.comp_def]

/-- C9 (amended): if, while `BroadcastSong` visits the members, `SendEvent`
returns nil for the members visited first (`pre`) and an error for the next one
(`e`), then `BroadcastSong` panics with that error.  Nobody is evicted: the room,
membership included, is as before.  `SendEvent` has been called for the members
of `pre` and for `e`, and for none of the members that follow (`post`).  The
control loop does not continue: a run of `Room.run` that handles an accepted
song request in that state ends with the same panic, whatever messages follow. -/
theorem Room.broadcastSong_panics_on_error (operation : String) (song : Option Song)
    (pre post : List (String × User)) (e : String × User) (err : String) (s : State)
    (hmem : s.room.users.entries = pre ++ e :: post)
    (hok : ∀ x ∈ pre, ∀ h, (SendEvent x.2 { Kind := operation, Song := song } h).2 = none)
    (hfail : ∀ h, (SendEvent e.2 { Kind := operation, Song := song } h).2 = some err) :
    (∃ s2, Room.BroadcastSong SendEvent operation song s = .panic err s2 ∧
      s2.room = s.room ∧
      s2.calls = s.calls
        ++ (pre ++ [e]).map (fun x => (x.2, { Kind := operation, Song := song }))) ∧
    (∀ encoded sg rest, operation = "enqueue" → song = some sg →
      ∃ s2, Room.run SendEvent (.request encoded (some sg) :: rest) s = .panic err s2 ∧
        s2.room = s.room) := by
  have hpres : ∀ st : State, st.room = s.room →
      ∀ x ∈ pre ++ e :: post, st.room.users.get? x.1 = some x.2 := by
    intro st hst x hx
    rw [hst]
    exact GoMap.get?_of_mem s.room.users x (hmem ▸ hx)
  constructor
  · obtain ⟨s2, hrun, hr, _, hca⟩ := broadcastSong_loop_fail SendEvent operation song
      pre post e err s (hpres s rfl) hok hfail
    refine ⟨s2, ?_, hr, hca⟩
    rw [Room.BroadcastSong, hmem]
    exact hrun
  · intro encoded sg rest hop hsong
    subst hop; subst hsong
    obtain ⟨s2, hrun, hr, _, _⟩ := broadcastSong_loop_fail SendEvent "enqueue" (some sg)
      pre post e err { s with spawned := s.spawned ++ [.Trans encoded] }
      (hpres _ rfl) hok hfail
    refine ⟨s2, ?_, hr⟩
    have hh : Room.handle SendEvent (.request encoded (some sg)) s = .panic err s2 := by
      simp only [Room.handle, Room.BroadcastSong]
      rw [hmem]
      exact hrun
    simp [Room.run, hh]

end SongFacts

/-! ## The playback worker -/

/-- A property of the state kept by the body of a `range` loop over the members
is kept by the loop. -/
theorem rangeUsers_preserves (P : State → Prop) (body : User → State → Result State)
    (hbody : ∀ u s, P s → P (body u s).state) (es : List (String × User)) (s : State)
    (h : P s) : P (rangeUsers body es s).state := by
  induction es generalizing s with
  | nil => exact h
  | cons e es ih =>
    simp only [rangeUsers]
    cases s.room.users.get? e.1 with
    | none => exact ih s h
    | some user =>
      have hb := hbody user s h
      cases hbs : body user s with
      | ok s1 => rw [hbs] at hb; simp only [hbs]; exact ih s1 hb
      | panic err s1 => rw [hbs] at hb; simp only [hbs]; exact hb

theorem broadcastBody_flag (message : broadcastMsg) (user : User) (s : State) :
    (broadcastBody message user s).state.room.stereoPlaying = s.room.stereoPlaying ∧
    (broadcastBody message user s).state.room.Name = s.room.Name := by
  unfold broadcastBody
  split
  · exact ⟨rfl, rfl⟩
  · split
    · exact ⟨rfl, rfl⟩
    · exact ⟨rfl, rfl⟩
    · split <;> exact ⟨rfl, rfl⟩

section PlaybackFacts

variable (SendEvent : User → Event → Chans → Chans × Option String)

variable (playEnds : Song → Bool)

theorem broadcastSongBody_room (operation : String) (song : Option Song) (u : User)
    (s : State) : (broadcastSongBody SendEvent operation song u s).state.room = s.room := by
  unfold broadcastSongBody
  simp only []
  split <;> rfl

/-- `BroadcastSong` leaves the room, membership included, as it was. -/
theorem Room.broadcastSong_room (operation : String) (song : Option Song) (s : State) :
    (Room.BroadcastSong SendEvent operation song s).state.room = s.room :=
  rangeUsers_preserves (fun st => st.room = s.room)
    (broadcastSongBody SendEvent operation song)
    (fun u st h => (broadcastSongBody_room SendEvent operation song u st).trans h)
    s.room.users.entries s rfl

/-- No message handled by the control loop changes the playback flag. -/
theorem Room.handle_flag (m : Msg) (s : State) :
    (Room.handle SendEvent m s).state.room.stereoPlaying = s.room.stereoPlaying := by
  cases m with
  | join user => rfl
  | leave user =>
    simp only [Room.handle]
    split
    · simp only [closeChan]
      split <;> rfl
    · rfl
  | broadcast message =>
    exact rangeUsers_preserves (fun st => st.room.stereoPlaying = s.room.stereoPlaying)
      (broadcastBody message)
      (fun u st h => (broadcastBody_flag message u st).1.trans h)
      s.room.users.entries s rfl
  | request encoded ack =>
    cases ack with
    | none => rfl
    | some song =>
      simp only [Room.handle]
      rw [Room.broadcastSong_room]

theorem Room.exec_flag (hs : List Happening) (s : State) :
    (Room.exec SendEvent hs s).state.room.stereoPlaying = s.room.stereoPlaying := by
  induction hs generalizing s with
  | nil => rfl
  | cons h hs ih =>
    cases h with
    | loop m =>
      have hm := Room.handle_flag SendEvent m s
      simp only [Room.exec]
      cases hh : Room.handle SendEvent m s with
      | ok s1 => rw [hh] at hm; exact (ih s1).trans hm
      | panic err s1 => rw [hh] at hm; exact hm
    | drain c =>
      simp only [Room.exec]
      exact ih (Room.drain c s)

/-- The loop of the worker keeps the playback flag and logs no new start. -/
theorem playLoop_flag (songs : List (Option Song)) (s : State) (steps : List PlayStep) :
    (playLoop SendEvent playEnds songs s steps).pb.st.room.stereoPlaying
      = s.room.stereoPlaying ∧
    (playLoop SendEvent playEnds songs s steps).pb.steps.count .start
      = steps.count .start := by
  induction songs generalizing s steps with
  | nil => exact ⟨rfl, rfl⟩
  | cons song rest ih =>
    cases song with
    | none => exact ⟨rfl, rfl⟩
    | some song =>
      have hroom := Room.broadcastSong_room SendEvent "next_song" (some song) s
      simp only [playLoop]
      cases hb : Room.BroadcastSong SendEvent "next_song" (some song) s with
      | panic err s1 =>
        rw [hb] at hroom
        simp only [Result.state] at hroom
        simp [hroom]
      | ok s1 =>
        rw [hb] at hroom
        simp only [Result.state] at hroom
        by_cases hp : playEnds song = true
        · simp only [hp, if_true]
          obtain ⟨h1, h2⟩ := ih s1 (steps ++ [.nextSong song, .play song, .finished song])
          rw [h1, h2, hroom]
          simp
        · simp [hp, hroom]

theorem Room.stereoPlay_flag (pb : Playback) :
    (Room.StereoPlay SendEvent playEnds pb).pb.st.room.stereoPlaying
      = true ∧
    (Room.StereoPlay SendEvent playEnds pb).pb.steps.count .start
      = pb.steps.count .start + (if pb.st.room.stereoPlaying then 0 else 1) := by
  unfold Room.StereoPlay
  by_cases hf : pb.st.room.stereoPlaying = true
  · simp [hf]
  · simp only [hf, Bool.false_eq_true, if_false]
    obtain ⟨h1, h2⟩ := playLoop_flag SendEvent playEnds pb.transcodedSongs
      { pb.st with room := { pb.st.room with stereoPlaying := true } } (pb.steps ++ [.start])
    rw [h1, h2]
    simp

theorem Playback.resume_flag (worker : PlayEnd) (pb : Playback) :
    (Playback.resume SendEvent playEnds worker pb).pb.st.room.stereoPlaying
      = pb.st.room.stereoPlaying ∧
    (Playback.resume SendEvent playEnds worker pb).pb.steps.count .start
      = pb.steps.count .start := by
  cases worker with
  | drained => exact playLoop_flag SendEvent playEnds pb.transcodedSongs pb.st pb.steps
  | guard => exact ⟨rfl, rfl⟩
  | playing song => exact ⟨rfl, rfl⟩
  | panic err => exact ⟨rfl, rfl⟩

theorem invocationsFrom_starts (worker : Option PlayEnd) (is : List Interlude)
    (pb : Playback) :
    (invocationsFrom SendEvent playEnds worker is pb).steps.count .start
      = pb.steps.count .start + (if pb.st.room.stereoPlaying || is.isEmpty then 0 else 1) ∧
    (is ≠ [] →
      (invocationsFrom SendEvent playEnds worker is pb).st.room.stereoPlaying = true) ∧
    (pb.st.room.stereoPlaying = true →
      (invocationsFrom SendEvent playEnds worker is pb).st.room.stereoPlaying = true) := by
  induction is generalizing pb worker with
  | nil => cases worker <;> simp [invocationsFrom]
  | cons i is ih =>
    have hflag : (pb.after SendEvent i).st.room.stereoPlaying = pb.st.room.stereoPlaying :=
      Room.exec_flag SendEvent i.happenings pb.st
    have hsteps : (pb.after SendEvent i).steps = pb.steps := rfl
    cases worker with
    | none =>
      obtain ⟨h1, h2⟩ := Room.stereoPlay_flag SendEvent playEnds (pb.after SendEvent i)
      obtain ⟨g1, _, g3⟩ := ih
        (match (Room.StereoPlay SendEvent playEnds (pb.after SendEvent i)).ending with
          | .guard => none
          | w => some w)
        (Room.StereoPlay SendEvent playEnds (pb.after SendEvent i)).pb
      simp only [invocationsFrom]
      refine ⟨?_, fun _ => g3 h1, fun _ => g3 h1⟩
      rw [g1, h1, h2, hflag, hsteps]
      cases pb.st.room.stereoPlaying <;> simp
    | some w =>
      obtain ⟨r1, r2⟩ := Playback.resume_flag SendEvent playEnds w (pb.after SendEvent i)
      obtain ⟨h1, h2⟩ := Room.stereoPlay_flag SendEvent playEnds
        (Playback.resume SendEvent playEnds w (pb.after SendEvent i)).pb
      obtain ⟨g1, _, g3⟩ := ih
        (match (Room.StereoPlay SendEvent playEnds
            (Playback.resume SendEvent playEnds w (pb.after SendEvent i)).pb).ending with
          | .guard => some (Playback.resume SendEvent playEnds w (pb.after SendEvent i)).ending
          | w2 => some w2)
        (Room.StereoPlay SendEvent playEnds
          (Playback.resume SendEvent playEnds w (pb.after SendEvent i)).pb).pb
      simp only [invocationsFrom]
      refine ⟨?_, fun _ => g3 h1, fun _ => g3 h1⟩
      rw [g1, h1, h2, r1, r2, hflag, hsteps]
      cases pb.st.room.stereoPlaying <;> simp

theorem invocations_starts (is : List Interlude) (pb : Playback) :
    (invocations SendEvent playEnds is pb).steps.count .start
      = pb.steps.count .start + (if pb.st.room.stereoPlaying || is.isEmpty then 0 else 1) ∧
    (is ≠ [] →
      (invocations SendEvent playEnds is pb).st.room.stereoPlaying = true) ∧
    (pb.st.room.stereoPlaying = true →
      (invocations SendEvent playEnds is pb).st.room.stereoPlaying = true) :=
  invocationsFrom_starts SendEvent playEnds none is pb

/-- C12: the start guard of `Room.StereoPlay`.  A room made by `NewRoom` has the
playback flag false.  An invocation that finds the flag false sets it to true
and logs the start before it receives any song: the loop of the worker begins
with the flag true and with every song sent so far still to receive, and the
flag is true when the invocation can go no further.  An invocation that finds
the flag true returns at once: no song is received, no event is broadcast, no
state is changed.  So, over any number of sequential invocations on a new room,
whatever happens to the room and whatever songs are sent in between, the body
of the worker starts at most once (exactly once if there is an invocation). -/
theorem Room.stereoPlay_starts_once :
    (∀ name addTrackErr room, NewRoom name addTrackErr = .ok room →
      room.stereoPlaying = false) ∧
    (∀ pb : Playback, pb.st.room.stereoPlaying = false →
      Room.StereoPlay SendEvent playEnds pb
        = playLoop SendEvent playEnds pb.transcodedSongs
            { pb.st with room := { pb.st.room with stereoPlaying := true } }
            (pb.steps ++ [.start]) ∧
      (Room.StereoPlay SendEvent playEnds pb).pb.st.room.stereoPlaying = true) ∧
    (∀ pb : Playback, pb.st.room.stereoPlaying = true →
      Room.StereoPlay SendEvent playEnds pb = { ending := .guard, pb := pb }) ∧
    (∀ (is : List Interlude) (pb : Playback),
      pb.st.room.stereoPlaying = false → pb.steps = [] →
      (invocations SendEvent playEnds is pb).steps.count .start ≤ 1 ∧
      (is ≠ [] →
        (invocations SendEvent playEnds is pb).steps.count .start = 1 ∧
        (invocations SendEvent playEnds is pb).st.room.stereoPlaying = true)) := by
  refine ⟨?_, ?_, ?_, ?_⟩
  · intro name addTrackErr room h
    cases addTrackErr with
    | some err => simp [NewRoom] at h
    | none =>
      simp only [NewRoom, Except.ok.injEq] at h
      rw [← h]
  · intro pb hf
    refine ⟨by simp [Room.StereoPlay, hf], (Room.stereoPlay_flag SendEvent playEnds pb).1⟩
  · intro pb hf
    simp [Room.StereoPlay, hf]
  · intro is pb hf hsteps
    obtain ⟨h1, h2, _⟩ := invocations_starts SendEvent playEnds is pb
    rw [hsteps, hf] at h1
    cases is with
    | nil => simp [invocations, invocationsFrom, hsteps]
    | cons i is =>
      simp only [List.count_nil, Bool.false_or, List.isEmpty_cons, Bool.false_eq_true,
        if_false, Nat.zero_add] at h1
      exact ⟨by rw [h1], fun hne => ⟨h1, h2 hne⟩⟩

/-- Whatever the songs, the playbacks and the deliveries do, the steps of the
worker are whole rounds for the first songs received, in the order in which
they were sent, followed at most by the beginning of the round of the next
song. -/
theorem playLoop_steps_shape (queue : List (Option Song)) (s : State)
    (steps : List PlayStep) :
    ∃ (played : List Song) (rest : List (Option Song)) (last : List PlayStep),
      queue = played.map some ++ rest ∧
      (playLoop SendEvent playEnds queue s steps).pb.steps
        = steps ++ played.flatMap playRound ++ last ∧
      (last = [] ∨ ∃ song rest2, rest = some song :: rest2 ∧
        (last = [.nextSong song] ∨ last = [.nextSong song, .play song])) := by
  induction queue generalizing s steps with
  | nil => exact ⟨[], [], [], rfl, by simp [playLoop], Or.inl rfl⟩
  | cons song rest ih =>
    cases song with
    | none => exact ⟨[], none :: rest, [], rfl, by simp [playLoop], Or.inl rfl⟩
    | some song =>
      simp only [playLoop]
      cases Room.BroadcastSong SendEvent "next_song" (some song) s with
      | panic err s1 =>
        exact ⟨[], some song :: rest, [.nextSong song], rfl, by simp,
          Or.inr ⟨song, rest, rfl, Or.inl rfl⟩⟩
      | ok s1 =>
        by_cases hp : playEnds song = true
        · simp only [hp, if_true]
          obtain ⟨played, rest2, last, hq, hs, hl⟩ :=
            ih s1 (steps ++ [.nextSong song, .play song, .finished song])
          refine ⟨song :: played, rest2, last, by simp [hq], ?_, hl⟩
          rw [hs]
          simp [playRound, List.flatMap_cons]
        · simp only [hp, Bool.false_eq_true, if_false]
          exact ⟨[], some song :: rest, [.nextSong song, .play song], rfl, by simp,
            Or.inr ⟨song, rest, rfl, Or.inr rfl⟩⟩

/-- When every playback ends and every delivery succeeds, the worker plays every
song sent, in order. -/
theorem playLoop_all (songs : List Song) (s : State) (steps : List PlayStep)
    (hplay : ∀ song ∈ songs, playEnds song = true)
    (hok : ∀ song ∈ songs, ∀ u ∈ s.room.GetUsers, ∀ h,
      (SendEvent u { Kind := "next_song", Song := some song } h).2 = none) :
    ∃ s2, playLoop SendEvent playEnds (songs.map some) s steps
        = { ending := .drained,
            pb := { st := s2, transcodedSongs := [],
                    steps := steps ++ songs.flatMap playRound } } ∧
      s2.room = s.room ∧
      s2.calls = s.calls ++ songs.flatMap (songRound "next_song" s.room.GetUsers) := by
  induction songs generalizing s steps with
  | nil => exact ⟨s, by simp [playLoop], rfl, by simp⟩
  | cons song songs ih =>
    obtain ⟨s1, hrun, hr, _, hca⟩ := broadcastSong_loop_ok SendEvent "next_song" (some song)
      s.room.users.entries s
      (fun e he => GoMap.get?_of_mem s.room.users e he)
      (fun e he h => hok song (List.mem_cons_self song songs) e.2
        (List.mem_map_of_mem Prod.snd he) h)
    have hb : Room.BroadcastSong SendEvent "next_song" (some song) s = .ok s1 := hrun
    obtain ⟨s2, hloop, hr2, hca2⟩ := ih s1 (steps ++ [.nextSong song, .play song, .finished song])
      (fun x hx => hplay x (List.mem_cons_of_mem song hx))
      (fun x hx u hu h => hok x (List.mem_cons_of_mem song hx) u (hr ▸ hu) h)
    refine ⟨s2, ?_, hr2.trans hr, ?_⟩
    · simp only [List.map_cons, playLoop, hb, hplay song (List.mem_cons_self song songs),
        if_true, hloop]
      simp [playRound, List.flatMap_cons]
    · rw [hca2, hca, hr]
      simp [songRound, Room.GetUsers, GoMap.values, List.flatMap_cons, Function.comp_def]

/-- C14: the body of `Room.StereoPlay` on a finite sequence of songs sent on
`r.transcodedSongs`.  Whatever the playbacks and the deliveries do, the steps of
the worker are whole rounds ("next_song" broadcast, start of the playback, end
of the wait for it) for the first songs of the sequence, in the order in which
they were sent, followed at most by the beginning of the round of the next
song: the broadcast for a song comes only after the playback of every earlier
song has been started and awaited.  When every playback ends and `SendEvent`
returns nil for the members, the worker receives every song and makes exactly
one round per song, in that order, each round sending the "next_song" event
of its song once to every member. -/
theorem Room.stereoPlay_fifo (pb : Playback) (hflag : pb.st.room.stereoPlaying = false) :
    (∃ (played : List Song) (rest : List (Option Song)) (last : List PlayStep),
      pb.transcodedSongs = played.map some ++ rest ∧
      (Room.StereoPlay SendEvent playEnds pb).pb.steps
        = pb.steps ++ [.start] ++ played.flatMap playRound ++ last ∧
      (last = [] ∨ ∃ song rest2, rest = some song :: rest2 ∧
        (last = [.nextSong song] ∨ last = [.nextSong song, .play song]))) ∧
    (∀ songs : List Song, pb.transcodedSongs = songs.map some →
      (∀ song ∈ songs, playEnds song = true) →
      (∀ song ∈ songs, ∀ u ∈ pb.st.room.GetUsers, ∀ h,
        (SendEvent u { Kind := "next_song", Song := some song } h).2 = none) →
      ∃ s2, Room.StereoPlay SendEvent playEnds pb
          = { ending := .drained,
              pb := { st := s2, transcodedSongs := [],
                      steps := pb.steps ++ [.start] ++ songs.flatMap playRound } } ∧
        s2.room = { pb.st.room with stereoPlaying := true } ∧
        s2.calls = pb.st.calls
          ++ songs.flatMap (songRound "next_song" pb.st.room.GetUsers)) := by
  have hsp : Room.StereoPlay SendEvent playEnds pb
      = playLoop SendEvent playEnds pb.transcodedSongs
          { pb.st with room := { pb.st.room with stereoPlaying := true } }
          (pb.steps ++ [.start]) := by
    simp [Room.StereoPlay, hflag]
  constructor
  · rw [hsp]
    exact playLoop_steps_shape SendEvent playEnds _ _ _
  · intro songs hq hplay hok
    rw [hsp, hq]
    exact playLoop_all SendEvent playEnds songs
      { pb.st with room := { pb.st.room with stereoPlaying := true } }
      (pb.steps ++ [.start]) hplay hok

end PlaybackFacts

/-! ## One participant per identity -/

/-- Under `KeyedByID` no two members read by `GetUsers` share an identity. -/
theorem KeyedByID.ids_nodup {r : Room} (hk : KeyedByID r.users) :
    (r.GetUsers.map (fun u => u.ID)).Nodup := by
  have h : r.GetUsers.map (fun u => u.ID) = r.users.entries.map Prod.fst := by
    simp only [Room.GetUsers, GoMap.values, List.map_map]
    apply List.map_congr_left
    intro e he
    exact hk e he
  rw [h]
  exact r.users.nodup

theorem broadcastBody_keyed (message : broadcastMsg) (user : User) (s : State)
    (hk : KeyedByID s.room.users) :
    KeyedByID (broadcastBody message user s).state.room.users := by
  unfold broadcastBody
  split
  · exact hk
  · split
    · exact hk
    · exact hk
    · split
      · exact hk
      · exact hk.delete user.ID

theorem GoMap.len_set_of_contains {V : Type} (m : GoMap V) (k : String) (v : V)
    (h : m.contains k = true) : (m.set k v).entries.length = m.entries.length := by
  have hl : (GoMap.lookup k m.entries).isSome = true := h
  simp [GoMap.set, GoMap.setEntries, hl]

section IdentityFacts

variable (SendEvent : User → Event → Chans → Chans × Option String)

/-- Every message handled by the control loop keeps the members stored under
their identity. -/
theorem Room.handle_keyed (m : Msg) (s : State) (hk : KeyedByID s.room.users) :
    KeyedByID (Room.handle SendEvent m s).state.room.users := by
  cases m with
  | join user => exact hk.set user
  | leave user =>
    exact Room.handle_joinLeave_keyed SendEvent (.leave user) rfl s hk
  | broadcast message =>
    exact rangeUsers_preserves (fun st => KeyedByID st.room.users) (broadcastBody message)
      (fun u st h => broadcastBody_keyed message u st h) s.room.users.entries s hk
  | request encoded ack =>
    cases ack with
    | none => exact hk
    | some song =>
      simp only [Room.handle]
      rw [Room.broadcastSong_room]
      exact hk

theorem Room.exec_keyed (hs : List Happening) (s : State) (hk : KeyedByID s.room.users) :
    KeyedByID (Room.exec SendEvent hs s).state.room.users := by
  induction hs generalizing s with
  | nil => exact hk
  | cons h hs ih =>
    cases h with
    | loop m =>
      have hm := Room.handle_keyed SendEvent m s hk
      simp only [Room.exec]
      cases hh : Room.handle SendEvent m s with
      | ok s1 => rw [hh] at hm; exact ih s1 hm
      | panic err s1 => rw [hh] at hm; exact hm
    | drain c =>
      simp only [Room.exec]
      exact ih (Room.drain c s) hk

/-- C13: in every state that the room reaches from an empty membership through a
sequence of messages handled by the control loop (Join, Leave, Broadcast, and
song requests as well) and of payloads drained from the sinks, be it the state
at the end of the sequence or the state at a panic, each identity occurs at
most once in membership: every member is stored under its identity, `GetUsers`
returns no two participants with the same identity, and a Join whose identity
is already a member completes, stores the newly joined participant in place of
the stored one (it is afterwards the only member with that identity) and does
not change the member count. -/
theorem Room.membership_one_per_identity (hs : List Happening) (s : State)
    (hempty : s.room.users = GoMap.empty) :
    KeyedByID (Room.exec SendEvent hs s).state.room.users ∧
    ((Room.exec SendEvent hs s).state.room.GetUsers.map (fun u => u.ID)).Nodup ∧
    (∀ u ∈ (Room.exec SendEvent hs s).state.room.GetUsers,
      ∀ v ∈ (Room.exec SendEvent hs s).state.room.GetUsers, u.ID = v.ID → u = v) ∧
    (∀ user : User,
      (Room.exec SendEvent hs s).state.room.users.contains user.ID = true →
      ∃ s2, Room.handle SendEvent (.join user) (Room.exec SendEvent hs s).state = .ok s2 ∧
        s2.room.users.get? user.ID = some user ∧
        user ∈ s2.room.GetUsers ∧
        (∀ v ∈ s2.room.GetUsers, v.ID = user.ID → v = user) ∧
        (s2.room.GetUsers.map (fun u => u.ID)).Nodup ∧
        s2.room.GetUsersCount = (Room.exec SendEvent hs s).state.room.GetUsersCount) := by
  have hk : KeyedByID (Room.exec SendEvent hs s).state.room.users :=
    Room.exec_keyed SendEvent hs s (hempty ▸ KeyedByID.empty)
  generalize (Room.exec SendEvent hs s).state = st at hk
  refine ⟨hk, hk.ids_nodup, List.inj_on_of_nodup_map hk.ids_nodup, ?_⟩
  intro user hcont
  have hk2 : KeyedByID (st.room.users.set user.ID user) := hk.set user
  have hget : (st.room.users.set user.ID user).get? user.ID = some user :=
    GoMap.get?_set_self _ _ _
  have hmem : user ∈ (st.room.users.set user.ID user).values := by
    have := GoMap.mem_of_lookup _ _ _ hget
    exact List.mem_map_of_mem Prod.snd this
  refine ⟨_, rfl, hget, hmem, ?_, ?_, ?_⟩
  · intro v hv hid
    have hnd : (({ st.room with users := st.room.users.set user.ID user } : Room).GetUsers.map
        (fun u => u.ID)).Nodup := KeyedByID.ids_nodup hk2
    exact List.inj_on_of_nodup_map hnd hv hmem hid
  · exact KeyedByID.ids_nodup hk2
  · simp only [Room.GetUsersCount, Room.GetUsers, GoMap.values, List.length_map]
    exact GoMap.len_set_of_contains _ _ _ hcont

end IdentityFacts

/-! ## Sinks are closed once -/

theorem GoMap.mem_set_entries {V : Type} (m : GoMap V) (k : String) (v : V)
    (e : String × V) (he : e ∈ (m.set k v).entries) : e ∈ m.entries ∨ e = (k, v) := by
  simp only [GoMap.set, GoMap.setEntries] at he
  split at he
  · rcases List.mem_map.1 he with ⟨x, hx, rfl⟩
    by_cases hxk : x.1 = k
    · right; simp [hxk]
    · left; simpa [hxk] using hx
  · rcases List.mem_append.1 he with h1 | h1
    · exact Or.inl h1
    · right; simpa using h1

theorem GoMap.mem_delete_entries {V : Type} (m : GoMap V) (k : String)
    (e : String × V) (he : e ∈ (m.delete k).entries) : e ∈ m.entries ∧ e.1 ≠ k := by
  simp only [GoMap.delete, GoMap.deleteEntries, List.mem_filter] at he
  exact ⟨he.1, by simpa using he.2⟩

theorem SinksSafe.membersLive {U J removed : List User} {s : State}
    (hP : DistinctParticipants U) (hJU : ∀ u ∈ J, u ∈ U) (inv : SinksSafe J removed s) :
    MembersLive s :=
  { keyed := inv.keyed
    sinksOpen := inv.sinksOpen
    sinksNodup := by
      refine List.Nodup.map_on ?_ (List.Nodup.of_map Prod.fst s.room.users.nodup)
      intro x hx y hy hxy
      have hu : x.2 = y.2 :=
        (hP x.2 (hJU _ (inv.membersJoined x hx)) y.2 (hJU _ (inv.membersJoined y hy))).2 hxy
      have hk : x.1 = y.1 := by rw [← inv.keyed x hx, ← inv.keyed y hy, hu]
      exact Prod.ext hk hu }

theorem SinksSafe.drain {J removed : List User} {s : State} (inv : SinksSafe J removed s)
    (c : Nat) : SinksSafe J removed (Room.drain c s) := by
  have hcl : ∀ x, ((Room.drain c s).chans x).closed = (s.chans x).closed := by
    intro x
    by_cases hx : x = c
    · simp [Room.drain, Chans.upd, hx]
    · simp [Room.drain, Chans.upd, hx]
  exact { keyed := inv.keyed
          sinksOpen := fun e he => (hcl _).trans (inv.sinksOpen e he)
          membersJoined := inv.membersJoined
          closedRemoved := fun u hu h => inv.closedRemoved u hu ((hcl _).symm.trans h) }

section SinkFacts

variable (SendEvent : User → Event → Chans → Chans × Option String)

/-- A Join of a joined participant that has not been removed. -/
theorem SinksSafe.join {J removed : List User} {s : State} (inv : SinksSafe J removed s)
    (user : User) (hJ : user ∈ J) (hnot : user ∉ removed) :
    ∃ s1, Room.handle SendEvent (.join user) s = .ok s1 ∧
      SinksSafe J (removed ++ membersLost s s1) s1 := by
  refine ⟨_, rfl, ?_⟩
  have hopen : (s.chans user.send).closed = false := by
    cases hc : (s.chans user.send).closed with
    | false => rfl
    | true => exact absurd (inv.closedRemoved user hJ hc) hnot
  exact
    { keyed := inv.keyed.set user
      sinksOpen := fun e he => by
        rcases GoMap.mem_set_entries _ _ _ e he with h | h
        · exact inv.sinksOpen e h
        · rw [h]; exact hopen
      membersJoined := fun e he => by
        rcases GoMap.mem_set_entries _ _ _ e he with h | h
        · exact inv.membersJoined e h
        · rw [h]; exact hJ
      closedRemoved := fun u hu h => List.mem_append_left _ (inv.closedRemoved u hu h) }

/-- A Leave of a participant, whether a member or not. -/
theorem SinksSafe.leave {U J removed : List User} {s : State}
    (hP : DistinctParticipants U) (hJU : ∀ u ∈ J, u ∈ U) (inv : SinksSafe J removed s)
    (user : User) (hU : user ∈ U) :
    ∃ s1, Room.handle SendEvent (.leave user) s = .ok s1 ∧
      SinksSafe J (removed ++ membersLost s s1) s1 := by
  cases hmem : s.room.users.contains user.ID with
  | false =>
    refine ⟨_, Room.handle_leave_absent SendEvent user s hmem, ?_⟩
    exact
      { keyed := inv.keyed
        sinksOpen := inv.sinksOpen
        membersJoined := inv.membersJoined
        closedRemoved := fun u hu h => List.mem_append_left _ (inv.closedRemoved u hu h) }
  | true =>
    -- the stored member is the participant that leaves
    have hentry : (user.ID, user) ∈ s.room.users.entries := by
      cases hg : s.room.users.get? user.ID with
      | none => simp [GoMap.contains, hg] at hmem
      | some v =>
        have hv := GoMap.mem_of_lookup _ _ _ hg
        have hid : v.ID = user.ID := inv.keyed _ hv
        have : v = user := (hP v (hJU _ (inv.membersJoined _ hv)) user hU).1 hid
        rw [this] at hv
        exact hv
    have hopen : (s.chans user.send).closed = false := inv.sinksOpen _ hentry
    have hh := Room.handle_leave_present SendEvent user s hmem
    simp only [hopen, Bool.false_eq_true, if_false] at hh
    refine ⟨_, hh, ?_⟩
    have hgone : ∀ e ∈ (s.room.users.delete user.ID).entries, e.2.send ≠ user.send := by
      intro e he hsend
      obtain ⟨h1, h2⟩ := GoMap.mem_delete_entries _ _ e he
      have : e.2 = user := (hP e.2 (hJU _ (inv.membersJoined e h1)) user hU).2 hsend
      exact h2 (by rw [← inv.keyed e h1, this])
    exact
      { keyed := inv.keyed.delete user.ID
        sinksOpen := fun e he => by
          have h1 := (GoMap.mem_delete_entries _ _ e he).1
          simp only [Chans.upd, hgone e he, if_false]
          exact inv.sinksOpen e h1
        membersJoined := fun e he =>
          inv.membersJoined e (GoMap.mem_delete_entries _ _ e he).1
        closedRemoved := fun u hu h => by
          by_cases hs : u.send = user.send
          · have hu2 : u = user := (hP u (hJU _ hu) user hU).2 hs
            apply List.mem_append_right
            rw [hu2]
            simp only [membersLost, List.mem_filter, decide_eq_true_eq]
            refine ⟨List.mem_map_of_mem Prod.snd hentry, ?_⟩
            intro hin
            simp only [Room.GetUsers, GoMap.values, List.mem_map] at hin
            obtain ⟨e, he, heu⟩ := hin
            exact hgone e he (by rw [heu])
          · simp only [Chans.upd, hs, if_false] at h
            exact List.mem_append_left _ (inv.closedRemoved u hu h) }

/-- A Broadcast. -/
theorem SinksSafe.broadcast {U J removed : List User} {s : State}
    (hP : DistinctParticipants U) (hJU : ∀ u ∈ J, u ∈ U) (inv : SinksSafe J removed s)
    (message : broadcastMsg) :
    ∃ s1, Room.handle SendEvent (.broadcast message) s = .ok s1 ∧
      SinksSafe J (removed ++ membersLost s s1) s1 := by
  have live := inv.membersLive hP hJU
  obtain ⟨s1, hrun, hu, hc, hf, _⟩ := Room.handle_broadcast_live SendEvent message s live
  refine ⟨s1, hrun, ?_⟩
  have hsub : ∀ e ∈ s1.room.users.entries,
      e ∈ s.room.users.entries ∧ keptByBroadcast message s.chans e.2 = true := by
    intro e he
    rw [hu, List.mem_filter] at he
    exact he
  exact
    { keyed := fun e he => inv.keyed e (hsub e he).1
      sinksOpen := fun e he => by
        obtain ⟨h1, h2⟩ := hsub e he
        have hopen := inv.sinksOpen e h1
        rw [hc e h1]
        simp only [keptByBroadcast, Bool.or_eq_true] at h2
        cases hex : isExcluded message e.2 with
        | true => simp [sinkAfterBroadcast, hex, hopen]
        | false =>
          rw [hex] at h2
          have hroom : (s.chans e.2.send).hasRoom = true := by simpa using h2
          simp [sinkAfterBroadcast, hex, hroom, hopen]
      membersJoined := fun e he => inv.membersJoined e (hsub e he).1
      closedRemoved := fun w hw h => by
        by_cases hex : ∃ e ∈ s.room.users.entries, e.2.send = w.send
        · obtain ⟨e, he, hsend⟩ := hex
          have hew : e.2 = w := (hP e.2 (hJU _ (inv.membersJoined e he)) w (hJU _ hw)).2 hsend
          have hopen := inv.sinksOpen e he
          have hin : w ∈ s.room.GetUsers := hew ▸ List.mem_map_of_mem Prod.snd he
          have hnk : keptByBroadcast message s.chans w = false := by
            cases hk : keptByBroadcast message s.chans w with
            | false => rfl
            | true =>
              exfalso
              rw [← hew] at hk h
              rw [hc e he] at h
              simp only [keptByBroadcast, Bool.or_eq_true] at hk
              cases hx : isExcluded message e.2 with
              | true => simp [sinkAfterBroadcast, hx, hopen] at h
              | false =>
                rw [hx] at hk
                have hroom : (s.chans e.2.send).hasRoom = true := by simpa using hk
                simp [sinkAfterBroadcast, hx, hroom, hopen] at h
          apply List.mem_append_right
          simp only [membersLost, List.mem_filter, decide_eq_true_eq]
          exact ⟨hin, (not_kept_absent message s s1 live hu w hin hnk).1⟩
        · have hne : ∀ e ∈ s.room.users.entries, e.2.send ≠ w.send :=
            fun e he hs => hex ⟨e, he, hs⟩
          rw [hf w.send hne] at h
          exact List.mem_append_left _ (inv.closedRemoved w hw h) }

/-- A sequence of Joins, Leaves, Broadcasts and drains in which no removed
participant is joined again runs to its end, from a safe state to a safe
state. -/
theorem Room.exec_sinksSafe {U J : List User}
    (hP : DistinctParticipants U) (hJU : ∀ u ∈ J, u ∈ U)
    (hs : List Happening) (s : State) (removed : List User)
    (hmem : ∀ h ∈ hs, h.isMembership = true)
    (hpart : ∀ h ∈ hs, ∀ u, h.participant = some u → u ∈ U)
    (hjoin : ∀ h ∈ hs, ∀ u, h.joined = some u → u ∈ J)
    (inv : SinksSafe J removed s)
    (hno : noRejoin SendEvent hs s removed = true) :
    ∃ s2 removed2, Room.exec SendEvent hs s = .ok s2 ∧ SinksSafe J removed2 s2 := by
  induction hs generalizing s removed with
  | nil => exact ⟨s, removed, rfl, inv⟩
  | cons h hs ih =>
    have hmem2 : ∀ x ∈ hs, x.isMembership = true :=
      fun x hx => hmem x (List.mem_cons_of_mem h hx)
    have hpart2 : ∀ x ∈ hs, ∀ u, x.participant = some u → u ∈ U :=
      fun x hx => hpart x (List.mem_cons_of_mem h hx)
    have hjoin2 : ∀ x ∈ hs, ∀ u, x.joined = some u → u ∈ J :=
      fun x hx => hjoin x (List.mem_cons_of_mem h hx)
    cases h with
    | drain c =>
      simp only [noRejoin] at hno
      simp only [Room.exec]
      exact ih (Room.drain c s) removed hmem2 hpart2 hjoin2 (inv.drain c) hno
    | loop m =>
      simp only [noRejoin, Bool.and_eq_true] at hno
      have hstep : ∃ s1, Room.handle SendEvent m s = .ok s1 ∧
          SinksSafe J (removed ++ membersLost s s1) s1 := by
        cases m with
        | join user =>
          have hJ : user ∈ J := hjoin _ (List.mem_cons_self _ _) user rfl
          have hnot : user ∉ removed := by simpa using hno.1
          exact inv.join SendEvent user hJ hnot
        | leave user =>
          have hU : user ∈ U := hpart _ (List.mem_cons_self _ _) user rfl
          exact inv.leave SendEvent hP hJU user hU
        | broadcast message => exact inv.broadcast SendEvent hP hJU message
        | request encoded ack =>
          have := hmem _ (List.mem_cons_self _ _)
          simp [Happening.isMembership] at this
      obtain ⟨s1, hh, inv1⟩ := hstep
      have hno2 := hno.2
      rw [hh] at hno2
      simp only [Result.state] at hno2
      simp only [Room.exec, hh]
      exact ih s1 _ hmem2 hpart2 hjoin2 inv1 hno2

theorem noRejoin_of_append (pre suf : List Happening) (s : State) (removed : List User)
    (h : noRejoin SendEvent (pre ++ suf) s removed = true) :
    noRejoin SendEvent pre s removed = true := by
  induction pre generalizing s removed with
  | nil => rfl
  | cons x pre ih =>
    cases x with
    | drain c =>
      simp only [List.cons_append, noRejoin] at h ⊢
      exact ih _ _ h
    | loop m =>
      simp only [List.cons_append, noRejoin, Bool.and_eq_true] at h ⊢
      exact ⟨h.1, ih _ _ h.2⟩

theorem DistinctParticipants.iff_identities_and_sinks (us : List User) :
    DistinctParticipants us ↔
      DistinctIdentities us ∧ ∀ u ∈ us, ∀ v ∈ us, u.send = v.send → u = v :=
  ⟨fun h => ⟨fun u hu v hv => (h u hu v hv).1, fun u hu v hv => (h u hu v hv).2⟩,
    fun h u hu v hv => ⟨h.1 u hu v hv, h.2 u hu v hv⟩⟩

theorem joined_participant (h : Happening) (u : User) (hj : h.joined = some u) :
    h.participant = some u := by
  cases h with
  | drain c => simp [Happening.joined] at hj
  | loop m =>
    cases m <;> simp_all [Happening.joined, Happening.participant]

/-- C17 (amended): under the preconditions of `SoundStart` (distinct participant
objects have distinct identities and, what the claim does not say, sinks of
their own; every sink is open when its participant is first joined, and only
the control loop closes sinks), some
sequences of Joins, Leaves and Broadcasts make `Room.run` panic: `Join(A),
Leave(A), Join(A), Leave(A)` closes the sink of `A` a second time, and `Join(A),
Leave(A), Join(A), Broadcast` sends on the closed sink of `A`.  If in addition
no participant is joined again after it has been removed by a Leave or an
eviction, the control loop handles the whole sequence without a panic (it never
closes a closed sink and never sends on one), and in every state reached on the
way the sink of every member is open. -/
theorem Room.sinks_closed_once :
    (SoundStart [.loop (.join alice), .loop (.leave alice), .loop (.join alice),
        .loop (.leave alice)] exEmpty ∧
      (Room.exec SendEvent [.loop (.join alice), .loop (.leave alice), .loop (.join alice),
        .loop (.leave alice)] exEmpty).err = some "close of closed channel") ∧
    (SoundStart [.loop (.join alice), .loop (.leave alice), .loop (.join alice),
        .loop (.broadcast { data := [7], user := none })] exEmpty ∧
      (Room.exec SendEvent [.loop (.join alice), .loop (.leave alice), .loop (.join alice),
        .loop (.broadcast { data := [7], user := none })] exEmpty).err
          = some "send on closed channel") ∧
    (∀ (hs : List Happening) (s : State), SoundStart hs s →
      noRejoin SendEvent hs s [] = true →
      ∀ pre suf, hs = pre ++ suf →
        ∃ s2, Room.exec SendEvent pre s = .ok s2 ∧
          ∀ u ∈ s2.room.GetUsers, (s2.chans u.send).closed = false) := by
  refine ⟨⟨⟨rfl, by decide, by unfold DistinctParticipants; decide, by decide⟩, rfl⟩,
    ⟨⟨rfl, by decide, by unfold DistinctParticipants; decide, by decide⟩, rfl⟩, ?_⟩
  intro hs s hstart hno pre suf hsplit
  have hsub : ∀ x ∈ pre, x ∈ hs := fun x hx => hsplit ▸ List.mem_append_left suf hx
  have hJU : ∀ u ∈ hs.filterMap Happening.joined, u ∈ hs.filterMap Happening.participant := by
    intro u hu
    rw [List.mem_filterMap] at hu ⊢
    obtain ⟨h, hh, hj⟩ := hu
    exact ⟨h, hh, joined_participant h u hj⟩
  have inv0 : SinksSafe (hs.filterMap Happening.joined) [] s :=
    { keyed := hstart.empty ▸ KeyedByID.empty
      sinksOpen := fun e he => by
        rw [hstart.empty] at he
        cases he
      membersJoined := fun e he => by
        rw [hstart.empty] at he
        cases he
      closedRemoved := fun u hu h => by
        rw [hstart.sinksOpen u hu] at h
        cases h }
  obtain ⟨s2, removed2, hrun, inv2⟩ := Room.exec_sinksSafe SendEvent hstart.distinct hJU
    pre s []
    (fun x hx => hstart.membership x (hsub x hx))
    (fun x hx u hp => List.mem_filterMap.2 ⟨x, hsub x hx, hp⟩)
    (fun x hx u hj => List.mem_filterMap.2 ⟨x, hsub x hx, hj⟩)
    inv0 (noRejoin_of_append SendEvent pre suf s [] (hsplit ▸ hno))
  refine ⟨s2, hrun, ?_⟩
  intro u hu
  simp only [Room.GetUsers, GoMap.values, List.mem_map] at hu
  obtain ⟨e, he, rfl⟩ := hu
  exact inv2.sinksOpen e he

end SinkFacts

/-! ## Public views and statistics -/

theorem foldl_append_singleton {α β : Type} (f : α → β) (l : List α) (init : List β) :
    l.foldl (fun acc a => acc ++ [f a]) init = init ++ l.map f := by
  induction l generalizing init with
  | nil => simp
  | cons a l ih => simp [ih]

theorem Room.wrap_nil {UW : Type} (wrap : User → UW) (r : Room) :
    r.Wrap wrap none
      = { Users := r.GetUsers.map wrap, Name := r.Name, Online := r.GetUsersCount } := by
  simp [Room.Wrap, Room.GetUsersCount, foldl_append_singleton]

theorem getStatsLoop_eq {UW : Type} (wrap : User → UW) (h : Heap)
    (es : List (String × RoomPtr)) (rooms : List Room)
    (hreg : es.map (fun e => h.deref e.2) = rooms.map some) (stats : RoomsStats UW) :
    getStatsLoop wrap h es stats
      = .ok { Online := stats.Online + (rooms.map Room.GetUsersCount).sum,
              Rooms := stats.Rooms ++ rooms.map (fun rm => rm.Wrap wrap none) } := by
  induction es generalizing rooms stats with
  | nil =>
    cases rooms with
    | nil => simp [getStatsLoop]
    | cons rm rooms => simp at hreg
  | cons e es ih =>
    cases rooms with
    | nil => simp at hreg
    | cons rm rooms =>
      simp only [List.map_cons, List.cons.injEq] at hreg
      simp only [getStatsLoop, getStatsBody, hreg.1]
      rw [ih rooms hreg.2]
      simp [Nat.add_assoc]

/-- C7: over a registry whose entries point to the rooms `rooms` (in the order of
the entries), `Rooms.GetStats` returns an `Online` total equal to the sum of the
membership counts (`GetUsersCount`) of these rooms, and a `Rooms` list with
exactly one summary per registered room, carrying that room's name and its
membership count as `Online` (the length of its `Users`); hence the total
`Online` is the sum of the `Online` fields of the summaries. -/
theorem Rooms.getStats_online_sum {UW : Type} (wrap : User → UW) (r : Rooms) (h : Heap)
    (rooms : List Room)
    (hreg : r.rooms.entries.map (fun e => h.deref e.2) = rooms.map some) :
    ∃ stats, r.GetStats wrap h = .ok stats ∧
      stats.Online = (rooms.map Room.GetUsersCount).sum ∧
      stats.Rooms.length = r.rooms.len ∧
      stats.Rooms.map (fun w => w.Name) = rooms.map (fun rm => rm.Name) ∧
      stats.Rooms.map (fun w => w.Online) = rooms.map Room.GetUsersCount ∧
      (∀ w ∈ stats.Rooms, w.Online = w.Users.length) ∧
      stats.Online = (stats.Rooms.map (fun w => w.Online)).sum := by
  have hlen : rooms.length = r.rooms.len := by
    have := congrArg List.length hreg
    simpa [GoMap.len] using this.symm
  refine ⟨_, getStatsLoop_eq wrap h r.rooms.entries rooms hreg _, ?_, ?_, ?_, ?_, ?_, ?_⟩
  · simp
  · simp [hlen]
  · simp [Room.wrap_nil, Function.comp_def]
  · simp [Room.wrap_nil, Function.comp_def]
  · intro w hw
    simp only [List.nil_append, List.mem_map] at hw
    obtain ⟨rm, _, rfl⟩ := hw
    simp [Room.wrap_nil, Room.GetUsersCount]
  · simp [Room.wrap_nil, Function.comp_def]

theorem foldl_skip_me {UW : Type} (wrap : User → UW) (me : User) (l : List User)
    (init : List UW) :
    l.foldl (fun usersWrap user =>
        if me.ID = user.ID then usersWrap else usersWrap ++ [wrap user]) init
      = init ++ (l.filter (fun user => decide (user.ID ≠ me.ID))).map wrap := by
  induction l generalizing init with
  | nil => simp
  | cons u l ih =>
    by_cases h : me.ID = u.ID
    · have h2 : decide (u.ID ≠ me.ID) = false := by simp [h]
      rw [List.foldl_cons, if_pos h, List.filter_cons_of_neg (by simp [h2]), ih]
    · have h2 : decide (u.ID ≠ me.ID) = true := by
        simp only [ne_eq, decide_not, Bool.not_eq_true', decide_eq_false_iff_not]
        exact fun h3 => h h3.symm
      rw [List.foldl_cons, if_neg h, List.filter_cons_of_pos (by exact h2), ih]
      simp

theorem length_filter_key_ne (k : String) (es : List (String × User))
    (hk : ∀ e ∈ es, e.2.ID = e.1) (hnd : (es.map Prod.fst).Nodup) :
    ((es.map Prod.snd).filter (fun user => decide (user.ID ≠ k))).length
      = if k ∈ es.map Prod.fst then es.length - 1 else es.length := by
  induction es with
  | nil => simp
  | cons e es ih =>
    rw [List.map_cons, List.nodup_cons] at hnd
    have hke : e.2.ID = e.1 := hk e (List.mem_cons_self e es)
    have ih2 := ih (fun x hx => hk x (List.mem_cons_of_mem e hx)) hnd.2
    by_cases hek : e.1 = k
    · have hnot : k ∉ es.map Prod.fst := hek ▸ hnd.1
      rw [if_neg hnot] at ih2
      have hd : decide (e.2.ID ≠ k) = false := by simp [hke, hek]
      have hmem : k ∈ (e :: es).map Prod.fst := by simp [hek]
      rw [List.map_cons, List.filter_cons_of_neg (by simp [hd]), ih2, if_pos hmem]
      simp
    · have hd : decide (e.2.ID ≠ k) = true := by simp [hke, hek]
      rw [List.map_cons, List.filter_cons_of_pos (by exact hd), List.length_cons, ih2]
      by_cases hm : k ∈ es.map Prod.fst
      · have hmem : k ∈ (e :: es).map Prod.fst := by
          rw [List.map_cons]; exact List.mem_cons_of_mem _ hm
        have hpos : 0 < es.length := by
          rcases List.mem_map.1 hm with ⟨x, hx, _⟩
          exact List.length_pos_of_mem hx
        rw [if_pos hm, if_pos hmem, List.length_cons]
        omega
      · have hmem : k ∉ (e :: es).map Prod.fst := by
          rw [List.map_cons, List.mem_cons]
          rintro (h | h)
          · exact hek h.symm
          · exact hm h
        rw [if_neg hm, if_neg hmem, List.length_cons]

/-- The members whose identity differs from `k`, counted: all of them, or all but
one when `k` is the identity of a member. -/
theorem KeyedByID.length_others {r : Room} (hk : KeyedByID r.users) (k : String) :
    (r.GetUsers.filter (fun user => decide (user.ID ≠ k))).length
      = if r.users.contains k then r.GetUsersCount - 1 else r.GetUsersCount := by
  have h := length_filter_key_ne k r.users.entries hk r.users.nodup
  have hcont : r.users.contains k = true ↔ k ∈ r.users.entries.map Prod.fst := by
    simp only [GoMap.contains, GoMap.get?]
    exact GoMap.lookup_isSome_iff k r.users.entries
  simp only [Room.GetUsersCount, Room.GetUsers, GoMap.values, List.length_map]
  rw [h]
  by_cases hm : k ∈ r.users.entries.map Prod.fst
  · rw [if_pos hm, if_pos (hcont.2 hm)]
  · rw [if_neg hm, if_neg (fun hc => hm (hcont.1 hc))]

/-- The summary `Room.Wrap(me)` for a non-nil `me`, read on the membership map. -/
theorem Room.wrap_some_eq {UW : Type} (wrap : User → UW) (r : Room) (me : User) :
    (r.Wrap wrap (some me)).Users
        = (r.users.entries.filter (fun e => decide (e.2.ID ≠ me.ID))).map (fun e => wrap e.2) ∧
    (r.Wrap wrap (some me)).Online
        = (r.users.entries.filter (fun e => decide (e.2.ID ≠ me.ID))).length := by
  have hu : (r.Wrap wrap (some me)).Users
      = (r.users.entries.filter (fun e => decide (e.2.ID ≠ me.ID))).map (fun e => wrap e.2) := by
    simp only [Room.Wrap, foldl_skip_me, List.nil_append, Room.GetUsers, GoMap.values,
      List.filter_map, List.map_map]
    rfl
  have hon : (r.Wrap wrap (some me)).Online = (r.Wrap wrap (some me)).Users.length := rfl
  exact ⟨hu, by rw [hon, hu, List.length_map]⟩

/-- In a room whose members are stored under their identity, the summary for
`me` counts every member but the one with the identity of `me`. -/
theorem KeyedByID.wrap_online {UW : Type} (wrap : User → UW) {r : Room}
    (hk : KeyedByID r.users) (me : User) :
    (r.users.contains me.ID = true → (r.Wrap wrap (some me)).Online + 1 = r.users.len) ∧
    (r.users.contains me.ID = false → (r.Wrap wrap (some me)).Online = r.users.len) := by
  have hlen := length_filter_key_ne me.ID r.users.entries hk r.users.nodup
  have hcont : r.users.contains me.ID = true ↔ me.ID ∈ r.users.entries.map Prod.fst := by
    simp only [GoMap.contains, GoMap.get?]
    exact GoMap.lookup_isSome_iff me.ID r.users.entries
  have hon : (r.Wrap wrap (some me)).Online
      = ((r.users.entries.map Prod.snd).filter (fun user => decide (user.ID ≠ me.ID))).length := by
    rw [(Room.wrap_some_eq wrap r me).2, List.filter_map, List.length_map]
    rfl
  rw [hon, hlen]
  constructor
  · intro hc
    have hm := hcont.1 hc
    rw [if_pos hm]
    have hpos : 0 < r.users.entries.length := by
      rcases List.mem_map.1 hm with ⟨x, hx, _⟩
      exact List.length_pos_of_mem hx
    simp only [GoMap.len]
    omega
  · intro hc
    have hm : me.ID ∉ r.users.entries.map Prod.fst := fun h => by
      rw [hcont.2 h] at hc
      cases hc
    rw [if_neg hm]
    rfl

/-- C16: the summary `Room.Wrap(me)`, read on the membership map `r.users`.
For a non-nil `me`, `Users` is the public view of the entries of the map whose
participant has an identity different from the identity of `me`: the entries
viewed are pairwise distinct (no member is viewed twice), every such entry is
among them, and no entry with the identity of `me` is; `Name` is the name of
the room; `Online` is the length
of `Users`.  In a room whose members are stored under their identity, which is
every room that the control loop reaches from an empty membership, `Online` is
one less than the number of entries of the map when the identity of `me` is a
key of the map, and that number otherwise.  For a nil `me`, `Users` is the view
of all the entries and `Online` is their number.  `GetUsers` reads the
participants of the entries and `GetUsersCount` is the number of entries. -/
theorem Room.wrap_excludes_me {UW : Type} (wrap : User → UW) (r : Room) :
    (r.GetUsers = r.users.entries.map Prod.snd ∧ r.GetUsersCount = r.users.len) ∧
    (∀ me : User,
      (r.Wrap wrap (some me)).Users
        = (r.users.entries.filter (fun e => decide (e.2.ID ≠ me.ID))).map
            (fun e => wrap e.2) ∧
      (r.users.entries.filter (fun e => decide (e.2.ID ≠ me.ID))).Nodup ∧
      (∀ e, e ∈ r.users.entries.filter (fun e => decide (e.2.ID ≠ me.ID)) ↔
        e ∈ r.users.entries ∧ e.2.ID ≠ me.ID) ∧
      (r.Wrap wrap (some me)).Name = r.Name ∧
      (r.Wrap wrap (some me)).Online = (r.Wrap wrap (some me)).Users.length ∧
      (KeyedByID r.users →
        (r.users.contains me.ID = true →
          (r.Wrap wrap (some me)).Online + 1 = r.users.len ∧
          (r.Wrap wrap (some me)).Online + 1 = r.GetUsersCount) ∧
        (r.users.contains me.ID = false →
          (r.Wrap wrap (some me)).Online = r.users.len ∧
          (r.Wrap wrap (some me)).Online = r.GetUsersCount))) ∧
    ((r.Wrap wrap none).Users = r.users.entries.map (fun e => wrap e.2) ∧
      (r.Wrap wrap none).Name = r.Name ∧
      (r.Wrap wrap none).Online = r.users.len ∧
      (r.Wrap wrap none).Online = r.GetUsersCount) ∧
    (∀ (SendEvent : User → Event → Chans → Chans × Option String) (hs : List Happening)
        (s : State) (me : User), s.room.users = GoMap.empty →
      ((Room.exec SendEvent hs s).state.room.users.contains me.ID = true →
        ((Room.exec SendEvent hs s).state.room.Wrap wrap (some me)).Online + 1
          = (Room.exec SendEvent hs s).state.room.users.len) ∧
      ((Room.exec SendEvent hs s).state.room.users.contains me.ID = false →
        ((Room.exec SendEvent hs s).state.room.Wrap wrap (some me)).Online
          = (Room.exec SendEvent hs s).state.room.users.len)) := by
  have hcount : r.GetUsersCount = r.users.len := by
    simp [Room.GetUsersCount, Room.GetUsers, GoMap.values, GoMap.len]
  have hnd : r.users.entries.Nodup := List.Nodup.of_map Prod.fst r.users.nodup
  refine ⟨⟨rfl, hcount⟩, ?_, ?_, ?_⟩
  · intro me
    refine ⟨(Room.wrap_some_eq wrap r me).1, hnd.filter _, ?_, rfl, rfl, ?_⟩
    · intro e
      rw [List.mem_filter]
      simp
    · intro hk
      obtain ⟨h1, h2⟩ := hk.wrap_online wrap me
      exact ⟨fun hc => ⟨h1 hc, by rw [hcount]; exact h1 hc⟩,
        fun hc => ⟨h2 hc, by rw [hcount]; exact h2 hc⟩⟩
  · refine ⟨?_, rfl, ?_, ?_⟩
    · simp [Room.wrap_nil, Room.GetUsers, GoMap.values]
    · simp [Room.wrap_nil, hcount]
    · simp [Room.wrap_nil]
  · intro SendEvent hs s me hempty
    have hk : KeyedByID (Room.exec SendEvent hs s).state.room.users :=
      Room.exec_keyed SendEvent hs s (hempty ▸ KeyedByID.empty)
    exact hk.wrap_online wrap me

/-! ## The registry -/

theorem Rooms.getOrCreate_of_registered (r : Rooms) (roomID : String) (room : RoomPtr)
    (hreg : r.rooms.get? roomID = some room) (addTrackErr : Option String) (h : Heap) :
    r.GetOrCreate roomID addTrackErr h = .ok (room, r, h) := by
  simp [Rooms.GetOrCreate, Rooms.Get, hreg]

theorem Rooms.getOrCreate_of_absent (r : Rooms) (roomID : String)
    (habs : r.rooms.get? roomID = none) (h : Heap) :
    r.GetOrCreate roomID none h =
      .ok (some h.objs.length, { rooms := r.rooms.set roomID (some h.objs.length) },
        { objs := h.objs ++ [{ Name := roomID, users := GoMap.empty, stereoPlaying := false }],
          running := h.running ++ [some h.objs.length] }) := by
  simp [Rooms.GetOrCreate, Rooms.Get, Rooms.AddRoom, NewRoom, habs]

/-- C5: `Rooms.GetOrCreate` is idempotent.  For an identifier that is registered it
returns the registered room and leaves the registry and the heap as they were,
whatever the outcome of the audio track construction (no room is constructed).
For an identifier that is not registered, and an audio track that can be
constructed, it allocates a new room, registers it under the identifier so that
`Get` returns exactly that room, starts one control loop for it, and leaves every
other identifier as it was.  In both cases a second call returns the same room
and changes nothing, and the registry holds exactly one entry for the identifier. -/
theorem Rooms.getOrCreate_idempotent (r : Rooms) (roomID : String) (h : Heap) :
    (∀ room, r.rooms.get? roomID = some room →
      ∀ addTrackErr, r.GetOrCreate roomID addTrackErr h = .ok (room, r, h)) ∧
    (r.rooms.get? roomID = none →
      ∃ r1 h1, r.GetOrCreate roomID none h = .ok (some h.objs.length, r1, h1) ∧
        r1.Get roomID = (some h.objs.length, none) ∧
        h1.deref (some h.objs.length)
          = some { Name := roomID, users := GoMap.empty, stereoPlaying := false } ∧
        h1.running = h.running ++ [some h.objs.length] ∧
        ∀ other, other ≠ roomID → r1.Get other = r.Get other) ∧
    (∃ room r1 h1, r.GetOrCreate roomID none h = .ok (room, r1, h1) ∧
      r1.Get roomID = (room, none) ∧
      (∀ addTrackErr, r1.GetOrCreate roomID addTrackErr h1 = .ok (room, r1, h1)) ∧
      (r1.rooms.entries.map Prod.fst).count roomID = 1) := by
  refine ⟨fun room hreg e => Rooms.getOrCreate_of_registered r roomID room hreg e h, ?_, ?_⟩
  · intro habs
    refine ⟨_, _, Rooms.getOrCreate_of_absent r roomID habs h, ?_, ?_, rfl, ?_⟩
    · simp [Rooms.Get, GoMap.get?_set_self]
    · simp [Heap.deref]
    · intro other hne
      simp [Rooms.Get, GoMap.get?_set_other _ _ _ _ hne]
  · cases hreg : r.rooms.get? roomID with
    | some room =>
      refine ⟨room, r, h, Rooms.getOrCreate_of_registered r roomID room hreg none h, ?_,
        fun e => Rooms.getOrCreate_of_registered r roomID room hreg e h,
        GoMap.count_key_of_get? r.rooms roomID room hreg⟩
      simp [Rooms.Get, hreg]
    | none =>
      have hget : (GoMap.set r.rooms roomID (some h.objs.length)).get? roomID
          = some (some h.objs.length) := GoMap.get?_set_self _ _ _
      refine ⟨_, _, _, Rooms.getOrCreate_of_absent r roomID hreg h, ?_,
        fun e => Rooms.getOrCreate_of_registered _ roomID _ hget e _,
        GoMap.count_key_of_get? _ roomID _ hget⟩
      simp [Rooms.Get, hget]

/-- C6: `Rooms.AddRoom` returns an error exactly when the identifier is already
registered; on error the registry is unchanged, so `Get` still returns the room
registered before; on success `Get` returns the given room and the entry of
every other identifier is unchanged. -/
theorem Rooms.addRoom_error_iff_registered (r : Rooms) (roomID : String) (room : RoomPtr) :
    ((r.AddRoom roomID room).2.isSome = true ↔ r.rooms.contains roomID = true) ∧
    ((r.AddRoom roomID room).2.isSome = true →
      (r.AddRoom roomID room).1 = r ∧
      (r.AddRoom roomID room).1.Get roomID = r.Get roomID ∧ (r.Get roomID).2 = none) ∧
    ((r.AddRoom roomID room).2 = none →
      (r.AddRoom roomID room).1.Get roomID = (room, none) ∧
      ∀ other, other ≠ roomID → (r.AddRoom roomID room).1.Get other = r.Get other) := by
  cases hreg : r.rooms.get? roomID with
  | some old =>
    simp [Rooms.AddRoom, Rooms.Get, GoMap.contains, hreg]
  | none =>
    refine ⟨by simp [Rooms.AddRoom, GoMap.contains, hreg],
      by simp [Rooms.AddRoom, hreg], fun _ => ⟨?_, ?_⟩⟩
    · simp [Rooms.AddRoom, Rooms.Get, hreg, GoMap.get?_set_self]
    · intro other hne
      simp [Rooms.AddRoom, Rooms.Get, hreg, GoMap.get?_set_other _ _ _ _ hne]

/-- C10: `Rooms.RemoveRoom` always returns nil; afterwards `Get` of the identifier
returns no room and `ErrNotFound`; the entry of every other identifier is
unchanged; and when the identifier was not registered the registry is exactly
the one before. -/
theorem Rooms.removeRoom_always_nil (r : Rooms) (roomID : String) :
    (r.RemoveRoom roomID).2 = none ∧
    (r.RemoveRoom roomID).1.Get roomID = (none, some GoError.ErrNotFound) ∧
    (∀ other, other ≠ roomID → (r.RemoveRoom roomID).1.Get other = r.Get other) ∧
    (r.rooms.contains roomID = false → (r.RemoveRoom roomID).1 = r) := by
  cases hreg : r.rooms.get? roomID with
  | some old =>
    refine ⟨by simp [Rooms.RemoveRoom, hreg], ?_, ?_, ?_⟩
    · simp [Rooms.RemoveRoom, Rooms.Get, hreg, GoMap.get?_delete_self]
    · intro other hne
      simp [Rooms.RemoveRoom, Rooms.Get, hreg, GoMap.get?_delete_other _ _ _ hne]
    · simp [GoMap.contains, hreg]
  | none =>
    refine ⟨by simp [Rooms.RemoveRoom, hreg], ?_, ?_, ?_⟩
    · simp [Rooms.RemoveRoom, Rooms.Get, hreg]
    · intro other _
      simp [Rooms.RemoveRoom, hreg]
    · intro _
      simp [Rooms.RemoveRoom, hreg]

/-- C11: `Rooms.Get` returns the registered room with a nil error when the
identifier is registered, and returns no room with `ErrNotFound` exactly when
the identifier is not registered.  `Get` only reads `r.rooms`: it yields its two
results and no registry, so the registry after the call is the registry before
it, and a second `Get` gives the same results. -/
theorem Rooms.get_found_or_notFound (r : Rooms) (roomID : String) :
    (∀ room, r.rooms.get? roomID = some room → r.Get roomID = (room, none)) ∧
    (r.rooms.contains roomID = true → (r.Get roomID).2 = none) ∧
    (r.Get roomID = (none, some GoError.ErrNotFound) ↔ r.rooms.contains roomID = false) ∧
    ((r.Get roomID).2 = some GoError.ErrNotFound ↔ r.rooms.contains roomID = false) ∧
    ((r.Get roomID).2 = none ∨ (r.Get roomID).2 = some GoError.ErrNotFound) := by
  cases hreg : r.rooms.get? roomID with
  | some room => simp [Rooms.Get, GoMap.contains, hreg]
  | none => simp [Rooms.Get, GoMap.contains, hreg]

theorem GoMap.delete_set_of_absent {V : Type} (m : GoMap V) (k : String) (v : V)
    (h : m.get? k = none) : (m.set k v).delete k = m := by
  apply GoMap.ext_entries
  have hl : GoMap.lookup k m.entries = none := h
  have hno : (GoMap.lookup k m.entries).isSome = false := by rw [hl]; rfl
  simp only [GoMap.delete, GoMap.set, GoMap.setEntries, hno, Bool.false_eq_true, if_false,
    GoMap.deleteEntries, List.filter_append]
  have h1 := GoMap.deleteEntries_of_lookup_none k m.entries hl
  simp only [GoMap.deleteEntries] at h1
  rw [h1]
  simp

/-- C19: for an identifier that is not registered, `AddRoom(id, room)` followed
by `RemoveRoom(id)` succeeds twice and yields the original registry (the same
identifiers mapped to the same rooms); for an identifier that is registered,
`RemoveRoom(id)` followed by `AddRoom(id, room)` succeeds twice, makes `Get(id)`
return the new room, and leaves the entry of every other identifier as it was. -/
theorem Rooms.addRoom_removeRoom_roundtrip (r : Rooms) (roomID : String) (room : RoomPtr) :
    (r.rooms.contains roomID = false →
      (r.AddRoom roomID room).2 = none ∧
      ((r.AddRoom roomID room).1.RemoveRoom roomID).2 = none ∧
      ((r.AddRoom roomID room).1.RemoveRoom roomID).1 = r) ∧
    (r.rooms.contains roomID = true →
      (r.RemoveRoom roomID).2 = none ∧
      ((r.RemoveRoom roomID).1.AddRoom roomID room).2 = none ∧
      ((r.RemoveRoom roomID).1.AddRoom roomID room).1.Get roomID = (room, none) ∧
      ∀ other, other ≠ roomID →
        ((r.RemoveRoom roomID).1.AddRoom roomID room).1.Get other = r.Get other) := by
  cases hreg : r.rooms.get? roomID with
  | none =>
    refine ⟨fun _ => ?_, fun h => by simp [GoMap.contains, hreg] at h⟩
    have hset : (r.rooms.set roomID room).get? roomID = some room := GoMap.get?_set_self _ _ _
    simp [Rooms.AddRoom, Rooms.RemoveRoom, hreg, hset, GoMap.delete_set_of_absent _ _ _ hreg]
  | some old =>
    refine ⟨fun h => by simp [GoMap.contains, hreg] at h, fun _ => ?_⟩
    have hdel : (r.rooms.delete roomID).get? roomID = none := GoMap.get?_delete_self _ _
    refine ⟨by simp [Rooms.RemoveRoom, hreg], by simp [Rooms.RemoveRoom, Rooms.AddRoom, hreg, hdel],
      by simp [Rooms.RemoveRoom, Rooms.AddRoom, Rooms.Get, hreg, hdel, GoMap.get?_set_self], ?_⟩
    intro other hne
    simp [Rooms.RemoveRoom, Rooms.AddRoom, Rooms.Get, hreg, hdel,
      GoMap.get?_set_other _ _ _ _ hne, GoMap.get?_delete_other _ _ _ hne]

/-! ## Callers of `GetOrCreate` -/

/-- `GetOrCreate` is the call of `Get` followed, on an error, by the rest of the
function: the two steps that a caller takes in `Shared.step`. -/
theorem Rooms.getOrCreate_eq_steps (r : Rooms) (roomID : String)
    (addTrackErr : Option String) (h : Heap) :
    r.GetOrCreate roomID addTrackErr h
      = match r.Get roomID with
        | (room, none) => .ok (room, r, h)
        | (_, some _) => r.createRoom roomID addTrackErr h := by
  unfold Rooms.GetOrCreate Rooms.createRoom
  rfl

theorem Rooms.getOrCreateTimes_of_registered (roomID : String) (room : RoomPtr) (n : Nat)
    (r : Rooms) (h : Heap) (hreg : r.rooms.get? roomID = some room) :
    Rooms.getOrCreateTimes roomID n r h = .ok (List.replicate n room, r, h) := by
  induction n with
  | zero => rfl
  | succ n ih =>
    simp only [Rooms.getOrCreateTimes,
      Rooms.getOrCreate_of_registered r roomID room hreg none h, ih, List.replicate_succ]

/-- C15 (amended): for calls of `GetOrCreate` with the same identifier made one
after the other, none starting before the previous one has returned (and an
audio track that can be constructed), every call returns the same room, which
is the room registered under the identifier at the end, under exactly one
entry; if the identifier was registered before the calls, no room is created
and no control loop started; otherwise exactly one room is created and
registered and exactly one control loop is started, for that room. -/
theorem Rooms.getOrCreate_sequential_calls (r : Rooms) (roomID : String) (h : Heap) (n : Nat) :
    ∃ room r1 h1,
      Rooms.getOrCreateTimes roomID (n + 1) r h = .ok (List.replicate (n + 1) room, r1, h1) ∧
      r1.Get roomID = (room, none) ∧
      (r1.rooms.entries.map Prod.fst).count roomID = 1 ∧
      (r.rooms.contains roomID = true → r1 = r ∧ h1 = h) ∧
      (r.rooms.contains roomID = false →
        room = some h.objs.length ∧
        h1.objs.length = h.objs.length + 1 ∧
        h1.running = h.running ++ [room]) := by
  cases hreg : r.rooms.get? roomID with
  | some room =>
    refine ⟨room, r, h, Rooms.getOrCreateTimes_of_registered roomID room (n + 1) r h hreg, ?_,
      GoMap.count_key_of_get? r.rooms roomID room hreg, fun _ => ⟨rfl, rfl⟩, ?_⟩
    · simp [Rooms.Get, hreg]
    · intro hc
      simp [GoMap.contains, hreg] at hc
  | none =>
    have hget : (GoMap.set r.rooms roomID (some h.objs.length)).get? roomID
        = some (some h.objs.length) := GoMap.get?_set_self _ _ _
    refine ⟨some h.objs.length, { rooms := r.rooms.set roomID (some h.objs.length) },
      { objs := h.objs ++ [{ Name := roomID, users := GoMap.empty, stereoPlaying := false }],
        running := h.running ++ [some h.objs.length] }, ?_, ?_,
      GoMap.count_key_of_get? _ roomID _ hget, ?_, fun _ => ⟨rfl, by simp, rfl⟩⟩
    · have htimes := Rooms.getOrCreateTimes_of_registered roomID (some h.objs.length) n
        { rooms := r.rooms.set roomID (some h.objs.length) }
        { objs := h.objs ++ [{ Name := roomID, users := GoMap.empty, stereoPlaying := false }],
          running := h.running ++ [some h.objs.length] } hget
      simp only [Rooms.getOrCreateTimes, Rooms.getOrCreate_of_absent r roomID hreg h, htimes,
        List.replicate_succ]
    · simp [Rooms.Get, hget]
    · intro hc
      simp [GoMap.contains, hreg] at hc

/-! ## The theorems at concrete inputs -/

theorem exLobby_live : MembersLive exLobby :=
  { keyed := by unfold KeyedByID; decide
    sinksOpen := by decide
    sinksNodup := by decide }

/-- C1 at a concrete input: after `Join(alice), Join(bob), Leave(alice)` from the
empty room the loop has completed, `bob` is a member and `alice` is not. -/
theorem Room.run_membership_last_join_witness :
    (Room.run sendOk [.join alice, .join bob, .leave alice] exEmpty).isOk = true ∧
    ((Room.run sendOk [.join alice, .join bob, .leave alice] exEmpty).state.room.users.contains
        "bob" = true ↔ lastIsJoin "bob" [.join alice, .join bob, .leave alice] = true) ∧
    ((∃ u ∈ (Room.run sendOk [.join alice, .join bob, .leave alice] exEmpty).state.room.GetUsers,
        u.ID = "alice") ↔ lastIsJoin "alice" [.join alice, .join bob, .leave alice] = true) ∧
    lastIsJoin "bob" [.join alice, .join bob, .leave alice] = true ∧
    lastIsJoin "alice" [.join alice, .join bob, .leave alice] = false :=
  ⟨by decide,
    ((Room.run_membership_last_join sendOk [.join alice, .join bob, .leave alice] exEmpty
      rfl (by decide) "bob").1 _ rfl).1,
    ((Room.run_membership_last_join sendOk [.join alice, .join bob, .leave alice] exEmpty
      rfl (by decide) "alice").1 _ rfl).2,
    by decide, by decide⟩

/-- C2 as stated fails: `carol` is a member, is not the excluded participant, and
her sink is full; handling `Broadcast([7], alice)` completes and appends nothing
to her sink. -/
theorem Room.broadcast_skips_full_sink :
    carol ∈ exLobby.room.GetUsers ∧
    isExcluded { data := [7], user := some alice } carol = false ∧
    (Room.handle sendOk (Room.Broadcast [7] (some alice)) exLobby).isOk = true ∧
    ((Room.handle sendOk (Room.Broadcast [7] (some alice)) exLobby).state.chans carol.send).buf
      = [[0]] ∧
    [7] ∉ ((Room.handle sendOk (Room.Broadcast [7] (some alice)) exLobby).state.chans
      carol.send).buf := by
  refine ⟨by decide, by decide, by decide, by decide, by decide⟩

/-- C2 (amended) at a concrete input: `Broadcast([7], alice)` on the lobby leaves
the sink of `alice` alone, appends the payload to the sink of `bob`, and closes
the full sink of `carol`, who is removed. -/
theorem Room.broadcast_delivers_unless_full_witness :
    MembersLive exLobby ∧
    ∃ s2, Room.handle sendOk (Room.Broadcast [7] (some alice)) exLobby = .ok s2 ∧
      s2.chans alice.send = exLobby.chans alice.send ∧
      (s2.chans bob.send).buf = [[7]] ∧
      (s2.chans carol.send).closed = true ∧ carol ∉ s2.room.GetUsers := by
  obtain ⟨s2, h, hall⟩ := Room.broadcast_delivers_unless_full sendOk
    { data := [7], user := some alice } exLobby exLobby_live
  refine ⟨exLobby_live, s2, h, ?_, ?_, ?_⟩
  · exact (hall alice (by decide)).1 (by decide)
  · rw [(hall bob (by decide)).2.1 (by decide) (by decide)]; rfl
  · have hc := (hall carol (by decide)).2.2 (by decide) (by decide)
    exact ⟨by rw [hc.1], hc.2⟩

/-- C3 as stated fails: the sink of `carol` is full when `Broadcast([7], carol)`
is handled, and `carol` is still a member afterwards. -/
theorem Room.broadcast_keeps_excluded_full :
    carol ∈ exLobby.room.GetUsers ∧
    (exLobby.chans carol.send).hasRoom = false ∧
    (Room.handle sendOk (Room.Broadcast [7] (some carol)) exLobby).isOk = true ∧
    carol ∈ (Room.handle sendOk (Room.Broadcast [7] (some carol)) exLobby).state.room.GetUsers := by
  refine ⟨by decide, by decide, by decide, by decide⟩

/-- C3 (amended) at a concrete input: `carol`, whose sink is full, is not the
excluded participant of `Broadcast([7], alice)` and is absent afterwards. -/
theorem Room.broadcast_evicts_full_unless_excluded_witness :
    MembersLive exLobby ∧
    ∃ s2, Room.handle sendOk (Room.Broadcast [7] (some alice)) exLobby = .ok s2 ∧
      carol ∉ s2.room.GetUsers ∧ s2.room.users.contains "carol" = false := by
  obtain ⟨s2, h, hall⟩ := Room.broadcast_evicts_full_unless_excluded sendOk
    { data := [7], user := some alice } exLobby exLobby_live
  exact ⟨exLobby_live, s2, h, hall carol (by decide) (by decide) (by decide)⟩

/-- C7 at a concrete input: two rooms with 2 and 3 members give `Online = 5` and
two summaries with counts 2 and 3. -/
theorem Rooms.getStats_online_sum_witness :
    exRooms.rooms.entries.map (fun e => exHeap.deref e.2) = exHeap.objs.map some ∧
    ∃ stats, exRooms.GetStats (fun u => u.ID) exHeap = .ok stats ∧
      stats.Online = 5 ∧
      stats.Rooms.map (fun w => w.Online) = [2, 3] ∧
      stats.Rooms.map (fun w => w.Name) = ["duo", "lobby"] := by
  obtain ⟨stats, h, hon, _, hname, honl, _, _⟩ :=
    Rooms.getStats_online_sum (fun u => u.ID) exRooms exHeap exHeap.objs rfl
  exact ⟨rfl, stats, h, by rw [hon]; rfl, by rw [honl]; rfl, by rw [hname]; rfl⟩

/-- C8 at a concrete input: an accepted request on the lobby sends one "enqueue"
event to each of `alice`, `bob` and `carol`; a rejected one sends nothing. -/
theorem Room.request_enqueue_once_witness :
    (Room.handle sendOk (.request "x" none) exLobby).state.calls = [] ∧
    ∃ s2, Room.handle sendOk (.request "x" (some exSong)) exLobby = .ok s2 ∧
      s2.room = exLobby.room ∧
      s2.calls = [(alice, { Kind := "enqueue", Song := some exSong }),
                  (bob, { Kind := "enqueue", Song := some exSong }),
                  (carol, { Kind := "enqueue", Song := some exSong })] := by
  obtain ⟨s2, h, hr, hc⟩ :=
    (Room.request_enqueue_once sendOk "x" exLobby).2 exSong (fun _ _ _ => rfl)
  exact ⟨rfl, s2, h, hr, by rw [hc]; rfl⟩

/-- C9 as stated fails: `SendEvent` returns an error for `alice`; the loop
handling the accepted request panics; `alice` is still a member; `bob` and
`carol` are sent nothing; and the `Join(dave)` that follows is never handled. -/
theorem Room.broadcastSong_error_aborts :
    (sendFailsFor "alice" alice { Kind := "enqueue", Song := some exSong } exLobby.chans).2
      = some "send failed" ∧
    (Room.run (sendFailsFor "alice") [.request "x" (some exSong), .join dave] exLobby).isOk
      = false ∧
    alice ∈ (Room.run (sendFailsFor "alice") [.request "x" (some exSong), .join dave]
      exLobby).state.room.GetUsers ∧
    (Room.run (sendFailsFor "alice") [.request "x" (some exSong), .join dave]
      exLobby).state.calls = [(alice, { Kind := "enqueue", Song := some exSong })] ∧
    (Room.run (sendFailsFor "alice") [.request "x" (some exSong), .join dave]
      exLobby).state.room.users.contains "dave" = false := by
  refine ⟨by decide, by decide, by decide, by decide, by decide⟩

/-- C9 (amended) at a concrete input: `SendEvent` returns nil for `alice` and an
error for `bob`; `BroadcastSong` panics with that error, nobody is evicted, and
`carol` is sent nothing. -/
theorem Room.broadcastSong_panics_on_error_witness :
    exLobby.room.users.entries = [("alice", alice)] ++ ("bob", bob) :: [("carol", carol)] ∧
    ∃ s2, Room.BroadcastSong (sendFailsFor "bob") "next_song" (some exSong) exLobby
        = .panic "send failed" s2 ∧
      s2.room = exLobby.room ∧
      s2.calls = [(alice, { Kind := "next_song", Song := some exSong }),
                  (bob, { Kind := "next_song", Song := some exSong })] := by
  obtain ⟨s2, h, hr, hc⟩ := (Room.broadcastSong_panics_on_error (sendFailsFor "bob")
    "next_song" (some exSong) [("alice", alice)] [("carol", carol)] ("bob", bob) "send failed"
    exLobby rfl
    (fun x hx _ => by
      rw [List.mem_singleton] at hx
      subst hx; rfl)
    (fun _ => rfl)).1
  exact ⟨rfl, s2, h, hr, by rw [hc]; rfl⟩

/-- C15 as stated fails: two callers of `GetOrCreate("lobby")` on an empty
registry, the second calling `Get` before the first has registered its room
(steps in the order first, second, first, second).  Both calls of `Get` return
`ErrNotFound`, two rooms are created, two control loops are started, and the
callers receive different rooms, the second of which is not the registered
one. -/
theorem Rooms.getOrCreate_interleaved_creates_two :
    (exTwoCallers.schedule "lobby" none [0, 1, 0, 1]).callers
      = [.returned (some 0), .returned (some 1)] ∧
    (exTwoCallers.schedule "lobby" none [0, 1, 0, 1]).heap.objs.length = 2 ∧
    (exTwoCallers.schedule "lobby" none [0, 1, 0, 1]).heap.running = [some 0, some 1] ∧
    (exTwoCallers.schedule "lobby" none [0, 1, 0, 1]).rooms.Get "lobby" = (some 0, none) := by
  refine ⟨by decide, by decide, by decide, by decide⟩

/-- C12 at a concrete input: three invocations of `StereoPlay` on the lobby,
with a Join and a new song in between, start the worker once. -/
theorem Room.stereoPlay_starts_once_witness :
    (invocations sendOk playsToEnd
      [{ happenings := [], songs := [] },
       { happenings := [.loop (.join dave)], songs := [some exSong] },
       { happenings := [], songs := [] }] exPlayback).steps.count .start = 1 ∧
    (Room.StereoPlay sendOk playsToEnd
      (Room.StereoPlay sendOk playsToEnd exPlayback).pb).ending = .guard :=
  ⟨((Room.stereoPlay_starts_once sendOk playsToEnd).2.2.2
      [{ happenings := [], songs := [] },
       { happenings := [.loop (.join dave)], songs := [some exSong] },
       { happenings := [], songs := [] }] exPlayback rfl rfl).2 (by simp) |>.1,
    by decide⟩

/-- C13 at a concrete input: after `exHappenings` from the empty lobby the
members have distinct identities, and a Join of another participant object
with the identity of `bob` replaces `bob` without changing the count. -/
theorem Room.membership_one_per_identity_witness :
    exEmpty.room.users = GoMap.empty ∧
    (Room.exec sendOk exHappenings exEmpty).state.room.GetUsers = [bob] ∧
    ((Room.exec sendOk exHappenings exEmpty).state.room.GetUsers.map (fun u => u.ID)).Nodup ∧
    ∃ s2, Room.handle sendOk (.join { ID := "bob", send := 8 })
        (Room.exec sendOk exHappenings exEmpty).state = .ok s2 ∧
      s2.room.users.get? "bob" = some { ID := "bob", send := 8 } ∧
      s2.room.GetUsersCount = 1 := by
  obtain ⟨_, hnd, _, hjoin⟩ := Room.membership_one_per_identity sendOk exHappenings exEmpty rfl
  obtain ⟨s2, h1, h2, _, _, _, h6⟩ := hjoin { ID := "bob", send := 8 } (by decide)
  exact ⟨rfl, by decide, hnd, s2, h1, h2, by rw [h6]; decide⟩

/-- C14 at a concrete input: the worker on the lobby with the songs X and Y
makes the round of X, then the round of Y, each sending "next_song" to
`alice`, `bob` and `carol`. -/
theorem Room.stereoPlay_fifo_witness :
    exPlayback.st.room.stereoPlaying = false ∧
    ∃ s2, Room.StereoPlay sendOk playsToEnd exPlayback
        = { ending := .drained,
            pb := { st := s2, transcodedSongs := [],
                    steps := [.start, .nextSong exSong, .play exSong, .finished exSong,
                              .nextSong exSong2, .play exSong2, .finished exSong2] } } ∧
      s2.calls = songRound "next_song" [alice, bob, carol] exSong
        ++ songRound "next_song" [alice, bob, carol] exSong2 := by
  obtain ⟨s2, h1, _, h3⟩ := (Room.stereoPlay_fifo sendOk playsToEnd exPlayback rfl).2
    [exSong, exSong2] rfl (fun _ _ => rfl) (fun _ _ _ _ _ => rfl)
  exact ⟨rfl, s2, h1, by rw [h3]; rfl⟩

/-- C15 (amended) at a concrete input: three calls of `GetOrCreate("lobby")` one
after the other on an empty registry return the same room, the only one
created, with one control loop started. -/
theorem Rooms.getOrCreate_sequential_calls_witness :
    ∃ r1 h1, Rooms.getOrCreateTimes "lobby" 3 NewRooms { objs := [], running := [] }
        = .ok ([some 0, some 0, some 0], r1, h1) ∧
      r1.Get "lobby" = (some 0, none) ∧ h1.objs.length = 1 ∧ h1.running = [some 0] := by
  obtain ⟨room, r1, h1, hrun, hget, _, _, hnew⟩ :=
    Rooms.getOrCreate_sequential_calls NewRooms "lobby" { objs := [], running := [] } 2
  obtain ⟨hroom, hlen, hloops⟩ := hnew (by decide)
  subst hroom
  exact ⟨r1, h1, hrun, hget, hlen, hloops⟩

/-- C17 at a concrete input: `exHappenings` joins no removed participant again;
the control loop handles it without a panic and the sink of `bob`, the member
left, is open. -/
theorem Room.sinks_closed_once_witness :
    SoundStart exHappenings exEmpty ∧
    noRejoin sendOk exHappenings exEmpty [] = true ∧
    ∃ s2, Room.exec sendOk exHappenings exEmpty = .ok s2 ∧
      ∀ u ∈ s2.room.GetUsers, (s2.chans u.send).closed = false :=
  ⟨⟨rfl, by decide, by unfold DistinctParticipants; decide, by decide⟩, by decide,
    (Room.sinks_closed_once sendOk).2.2 exHappenings exEmpty
      ⟨rfl, by decide, by unfold DistinctParticipants; decide, by decide⟩ (by decide)
      exHappenings [] (by simp)⟩

/-- C16 at a concrete input: on the lobby of `alice`, `bob` and `carol`, the
summary for `alice` views `bob` and `carol` and counts two; the summary for
`dave`, who is not a member, and the summary for nil view the three members and
count three. -/
theorem Room.wrap_excludes_me_witness :
    exLobby.room.GetUsers = [alice, bob, carol] ∧
    exLobby.room.GetUsersCount = 3 ∧
    (exLobby.room.Wrap (fun u => u.ID) (some alice)).Users = ["bob", "carol"] ∧
    (exLobby.room.Wrap (fun u => u.ID) (some alice)).Name = "lobby" ∧
    (exLobby.room.Wrap (fun u => u.ID) (some alice)).Online = 2 ∧
    (exLobby.room.Wrap (fun u => u.ID) (some dave)).Users = ["alice", "bob", "carol"] ∧
    (exLobby.room.Wrap (fun u => u.ID) (some dave)).Online = 3 ∧
    (exLobby.room.Wrap (fun u => u.ID) none).Users = ["alice", "bob", "carol"] ∧
    (exLobby.room.Wrap (fun u => u.ID) none).Online = 3 := by
  obtain ⟨⟨h1, h2⟩, hme, ⟨h3, _, h4, _⟩, _⟩ :=
    Room.wrap_excludes_me (fun u => u.ID) exLobby.room
  have hk : KeyedByID exLobby.room.users := by unfold KeyedByID; decide
  have hlen : exLobby.room.users.len = 3 := by decide
  obtain ⟨ha, _, _, han, _, hao⟩ := hme alice
  obtain ⟨hd, _, _, _, _, hdo⟩ := hme dave
  have ha2 := ((hao hk).1 (by decide)).1
  have hd2 := ((hdo hk).2 (by decide)).1
  refine ⟨by rw [h1]; decide, by rw [h2]; decide, by rw [ha]; decide, by rw [han]; decide,
    by omega, by rw [hd]; decide, by omega, by rw [h3]; decide, by rw [h4]; decide⟩

/-- C17 as stated fails: `eve` and `frank` are distinct participant objects with
distinct identities; the sink that they share is open when each of them is
first joined and only the control loop closes it; neither is joined again after
a removal.  After `Join(eve), Join(frank), Leave(eve)`, handled without a panic,
`frank` is a member and his sink is closed, and a Broadcast handled next sends
on the closed sink. -/
theorem Room.shared_sink_closed_without_rejoin :
    exEmpty.room.users = GoMap.empty ∧
    (∀ h ∈ exSharedSink ++ [Happening.loop (Room.Broadcast [7] none)],
      h.isMembership = true) ∧
    DistinctIdentities ((exSharedSink ++ [Happening.loop (Room.Broadcast [7] none)]).filterMap
      Happening.participant) ∧
    (∀ u ∈ (exSharedSink ++ [Happening.loop (Room.Broadcast [7] none)]).filterMap
      Happening.joined, (exEmpty.chans u.send).closed = false) ∧
    noRejoin sendOk (exSharedSink ++ [Happening.loop (Room.Broadcast [7] none)])
      exEmpty [] = true ∧
    (Room.exec sendOk exSharedSink exEmpty).isOk = true ∧
    (Room.exec sendOk exSharedSink exEmpty).state.room.GetUsers = [frank] ∧
    ((Room.exec sendOk exSharedSink exEmpty).state.chans frank.send).closed = true ∧
    (Room.exec sendOk (exSharedSink ++ [Happening.loop (Room.Broadcast [7] none)])
      exEmpty).err = some "send on closed channel" ∧
    ¬ DistinctParticipants (exSharedSink.filterMap Happening.participant) := by
  refine ⟨rfl, by decide, by unfold DistinctIdentities; decide, by decide, by decide,
    by decide, by decide, by decide, by decide, ?_⟩
  intro h
  have := (h eve (by decide) frank (by decide)).2 rfl
  exact absurd this (by decide)

/-- C18 as stated fails, on a room that the control loop reaches from an empty
membership.  After `Join(alice), Leave(alice), Join(alice), Join(carol)` the
members are `alice`, whose sink is closed, and `carol`, whose sink is full;
nobody is excluded from `Broadcast([7], nil)`; handling it panics on the sink of
`alice`, and `carol` is still a member.  And after `Join(eve), Join(frank)`,
two members that share a sink with room for one payload, the Broadcast is
handled without a panic and removes `frank`, whose sink was not full before the
Broadcast, while `eve`, who stays, has the sink closed. -/
theorem Room.broadcast_stops_at_closed_sink :
    ((Room.run sendOk exRejoined exEmpty).isOk = true ∧
      (Room.run sendOk exRejoined exEmpty).state.room.GetUsers = [alice, carol] ∧
      isExcluded { data := [7], user := none } carol = false ∧
      ((Room.run sendOk exRejoined exEmpty).state.chans carol.send).hasRoom = false ∧
      (Room.handle sendOk (Room.Broadcast [7] none)
        (Room.run sendOk exRejoined exEmpty).state).err = some "send on closed channel" ∧
      (Room.handle sendOk (Room.Broadcast [7] none)
        (Room.run sendOk exRejoined exEmpty).state).state.room.GetUsers = [alice, carol]) ∧
    ((Room.run sendOk [.join eve, .join frank] exEmpty).isOk = true ∧
      (Room.run sendOk [.join eve, .join frank] exEmpty).state.room.GetUsers = [eve, frank] ∧
      ((Room.run sendOk [.join eve, .join frank] exEmpty).state.chans frank.send).hasRoom = true ∧
      (Room.handle sendOk (Room.Broadcast [7] none)
        (Room.run sendOk [.join eve, .join frank] exEmpty).state).isOk = true ∧
      (Room.handle sendOk (Room.Broadcast [7] none)
        (Room.run sendOk [.join eve, .join frank] exEmpty).state).state.room.GetUsers = [eve] ∧
      ((Room.handle sendOk (Room.Broadcast [7] none)
        (Room.run sendOk [.join eve, .join frank] exEmpty).state).state.chans eve.send).closed
          = true) := by
  refine ⟨⟨by decide, by decide, by decide, by decide, by decide, by decide⟩,
    by decide, by decide, by decide, by decide, by decide, by decide⟩

theorem exLobby_ready : BroadcastReady { data := [7], user := some alice } exLobby :=
  { keyed := by unfold KeyedByID; decide
    sinksOpen := by decide
    sinksNodup := by decide }

/-- C18 (amended) at a concrete input: `Broadcast([7], alice)` on the lobby
removes `carol`, whose sink is full, and nobody else; her sink, open before, is
closed, and the sinks of `alice` and `bob` stay open. -/
theorem Room.broadcast_removes_exactly_full_witness :
    BroadcastReady { data := [7], user := some alice } exLobby ∧
    exLobby.room.GetUsers = [alice, bob, carol] ∧
    ∃ s2, Room.handle sendOk (Room.Broadcast [7] (some alice)) exLobby = .ok s2 ∧
      s2.room.users.entries = [("alice", alice), ("bob", bob)] ∧
      s2.room.GetUsers = [alice, bob] ∧
      ((s2.chans carol.send).closed = true ∧ (exLobby.chans carol.send).closed = false) ∧
      (s2.chans alice.send).closed = false ∧ (s2.chans bob.send).closed = false := by
  obtain ⟨s2, h1, h2, h3, _, _, _, _, h8, h9, _⟩ := Room.broadcast_removes_exactly_full sendOk
    { data := [7], user := some alice } exLobby exLobby_ready
  have hg : s2.room.GetUsers = [alice, bob] := by rw [h3]; decide
  refine ⟨exLobby_ready, by decide, s2, h1, by rw [h2]; decide, hg, ?_, ?_, ?_⟩
  · exact (h8 carol (by decide)).2 (by rw [hg]; decide)
  · rw [h9 alice (by decide) (by rw [hg]; decide)]; decide
  · rw [h9 bob (by decide) (by rw [hg]; decide)]; decide

end SingSphere
